import Mathlib

/-!
Verification of the doc-harvester crawler core: a shallow embedding of the
site tree (pkg/tree/webtree.go, pkg/node), the link classifier and harvest
orchestrator (pkg/harvester/harvester.go) and the XML document store
(pkg/storage).  Go strings are modelled as lists of characters; Go maps
whose values are only ever read back by key are modelled as association
lists; pointer mutation of tree nodes is modelled by paths (lists of child
indices) into a pure rose tree.  The net/url collaborator is modelled for
the absolute http(s) URL shapes the program manipulates: parsing splits
scheme, host, path, query and fragment, and fails exactly on control
characters (the dominant failure mode of url.Parse); URL.String reassembles
the components.
-/

set_option maxHeartbeats 1000000

/-- A Go string, modelled as a list of characters. -/
abbrev Str := List Char

/-- Model of Go's url.URL restricted to the components the program uses. -/
structure GoURL where
  scheme : Str
  host : Str
  path : Str
  query : Str
  fragment : Str
deriving DecidableEq, Repr

/-- Split a list at the first occurrence of a character: returns the part
before it and, when the character occurs, the part after it. -/
def splitAtFirst (c : Char) : Str → Str × Option Str
  | [] => ([], none)
  | x :: xs =>
    if x = c then ([], some xs)
    else
      let r := splitAtFirst c xs
      (x :: r.1, r.2)

/-- A character on which Go's url.Parse reports an error
(net/url rejects ASCII control characters). -/
def isCtlChar (c : Char) : Bool := c.toNat < 0x20 || c.toNat == 0x7f

/-- Model of url.Parse for the URL shapes the harvester manipulates:
fragment after the first unescaped hash, then scheme://host when a colon
followed by two slashes is present, then path and query.  Returns none
exactly when the string contains a control character, the failure mode of
net/url relevant here. -/
def parseURL (s : Str) : Option GoURL :=
  if s.any isCtlChar then none
  else
    let fr := splitAtFirst '#' s
    let fragment := fr.2.getD []
    let sc := splitAtFirst ':' fr.1
    match sc.2 with
    | some r =>
      if r.take 2 = ['/', '/'] then
        let hp := r.drop 2
        let host := hp.takeWhile (fun c => c ≠ '/' && c ≠ '?')
        let rest := hp.dropWhile (fun c => c ≠ '/' && c ≠ '?')
        let pq := splitAtFirst '?' rest
        some ⟨sc.1, host, pq.1, pq.2.getD [], fragment⟩
      else
        let pq := splitAtFirst '?' fr.1
        some ⟨[], [], pq.1, pq.2.getD [], fragment⟩
    | none =>
      let pq := splitAtFirst '?' fr.1
      some ⟨[], [], pq.1, pq.2.getD [], fragment⟩

/-- Model of url.URL.String: scheme, authority, path, query, fragment. -/
def GoURL.toStr (u : GoURL) : Str :=
  (if u.scheme.isEmpty then [] else u.scheme ++ [':'])
    ++ (if u.host.isEmpty then [] else ['/', '/'] ++ u.host)
    ++ u.path
    ++ (if u.query.isEmpty then [] else '?' :: u.query)
    ++ (if u.fragment.isEmpty then [] else '#' :: u.fragment)

/-- strings.TrimRight with a one-character cutset: drop every trailing
occurrence of the character. -/
def trimRightChar (c : Char) (s : Str) : Str :=
  (s.reverse.dropWhile (fun x => x = c)).reverse

/-- normalizeURL from webtree.go: drop the fragment, strip trailing path
slashes, and render the result; the empty string for a nil URL. -/
def normalizeURL : Option GoURL → Str
  | none => []
  | some u => GoURL.toStr { u with fragment := [], path := trimRightChar '/' u.path }

/-- Whether the first list is a prefix of the second, as a boolean. -/
def prefixOfL : Str → Str → Bool
  | [], _ => true
  | _ :: _, [] => false
  | a :: as, b :: bs => a = b && prefixOfL as bs

/-- strings.Contains: the second list occurs as a contiguous sublist of the
first. -/
def containsSub : Str → Str → Bool
  | [], pat => prefixOfL pat []
  | c :: rest, pat => prefixOfL pat (c :: rest) || containsSub rest pat

/-- strings.LastIndex for a single character, as an optional index
(none plays the role of Go's -1). -/
def lastIndexOf (c : Char) : Str → Option Nat
  | [] => none
  | x :: xs =>
    match lastIndexOf c xs with
    | some i => some (i + 1)
    | none => if x = c then some 0 else none

/-- The hard-coded topic keyword of the classifier fallback rule. -/
def topicKeyword : Str := "prompt-engineering".data

/-- isParentURL from harvester.go: same host, then the candidate's
slash-stripped path must equal the parent path of the root's slash-stripped
path, or both must contain the topic keyword.  The debug prints do not
affect the decision and are omitted. -/
def isParentURL (rootURL link : Str) : Bool :=
  match parseURL rootURL with
  | none => false
  | some currentURL =>
    match parseURL link with
    | none => false
    | some linkURL =>
      if currentURL.host = linkURL.host then
        let currentPath := trimRightChar '/' currentURL.path
        let linkPath := trimRightChar '/' linkURL.path
        match lastIndexOf '/' currentPath with
        | none => false
        | some lastSlash =>
          let parentPath := currentPath.take lastSlash
          if linkPath = parentPath then true
          else containsSub parentPath topicKeyword && containsSub linkPath topicKeyword
      else false

/-- A path with its final slash-delimited segment removed: drop the
trailing run of non-slash characters and the slash before it. -/
def dropLastSegment (p : Str) : Str :=
  ((p.reverse.dropWhile (fun c => c ≠ '/')).drop 1).reverse

/-- The classifier exactly as claim C2 words it: hosts equal, the root
path (as parsed, no trailing-slash stripping) contains a slash, and the
candidate's slash-stripped path equals the root path's parent-path, or
both contain the topic keyword. -/
def specLinkClassifierC2 (rootURL link : Str) : Bool :=
  match parseURL rootURL, parseURL link with
  | some r, some l =>
    r.host == l.host && r.path.any (fun c => c = '/') &&
      (trimRightChar '/' l.path == dropLastSegment r.path ||
        (containsSub (dropLastSegment r.path) topicKeyword &&
          containsSub (trimRightChar '/' l.path) topicKeyword))
  | _, _ => false

/-- The classifier with the root path first stripped of trailing slashes,
the correction the code forces on claim C2. -/
def specLinkClassifierAmended (rootURL link : Str) : Bool :=
  match parseURL rootURL, parseURL link with
  | some r, some l =>
    let rp := trimRightChar '/' r.path
    r.host == l.host && rp.any (fun c => c = '/') &&
      (trimRightChar '/' l.path == dropLastSegment rp ||
        (containsSub (dropLastSegment rp) topicKeyword &&
          containsSub (trimRightChar '/' l.path) topicKeyword))
  | _, _ => false

/-- C2 counterexample input: the crawl root whose path ends in a slash. -/
def c2Root : Str := "https://h/x/".data

/-- C2 counterexample input: a candidate link with an empty path. -/
def c2Link : Str := "https://h".data

/-- WebNode from pkg/node: URL, title, depth and owned children.  The Go
parent back-reference is non-owning and is represented by the position of a
node inside the tree, so it does not appear as a field; ContentType and
Metadata are never read by the verified operations and are omitted. -/
inductive WebNode : Type where
  | mk (url : Option GoURL) (title : Str) (depth : Int) (children : List WebNode) : WebNode

/-- The URL of a node. -/
def WebNode.url : WebNode → Option GoURL
  | .mk u _ _ _ => u

/-- The title of a node. -/
def WebNode.title : WebNode → Str
  | .mk _ t _ _ => t

/-- The depth of a node. -/
def WebNode.depth : WebNode → Int
  | .mk _ _ d _ => d

/-- The children of a node. -/
def WebNode.children : WebNode → List WebNode
  | .mk _ _ _ cs => cs

/-- Replace the title of a node (the Title field assignment). -/
def WebNode.setTitle : WebNode → Str → WebNode
  | .mk u _ d cs, t => .mk u t d cs

/-- Replace the children of a node. -/
def WebNode.setChildren : WebNode → List WebNode → WebNode
  | .mk u t d _, cs => .mk u t d cs

/-- AddChild from pkg/node: append a child (the nil check of the Go code
cannot fire in a pure model, every WebNode value is a real node). -/
def WebNode.addChild (n child : WebNode) : WebNode :=
  n.setChildren (n.children ++ [child])

/-- NewWebNode from pkg/node: parse the URL, fail on a parse error, depth
is parent depth plus one, or zero without a parent. -/
def newWebNode (urlStr : Str) (parent : Option WebNode) : Option WebNode :=
  match parseURL urlStr with
  | none => none
  | some u =>
    some (.mk (some u) []
      (match parent with
       | some p => p.depth + 1
       | none => 0) [])

/-- WebTree from pkg/tree: root node, maximum depth, visited canonical URL
set (the Go map from string to bool holding only true entries). -/
structure WebTree where
  rootNode : WebNode
  maxDepth : Int
  visitedURLs : List Str

/-- NewWebTree: build the root node, empty visited set. -/
def newWebTree (rootURL : Str) (maxDepth : Int) : Option WebTree :=
  match newWebNode rootURL none with
  | none => none
  | some r => some ⟨r, maxDepth, []⟩

/-- Follow a list of child indices down from a node; the pure stand-in for
a Go pointer into the tree. -/
def getAt : WebNode → List Nat → Option WebNode
  | n, [] => some n
  | n, i :: is =>
    match n.children[i]? with
    | some c => getAt c is
    | none => none

/-- Apply a function to the node at a path, leaving the tree unchanged
when the path is invalid; the pure stand-in for mutation through a Go
pointer. -/
def modifyAt : WebNode → List Nat → (WebNode → WebNode) → WebNode
  | n, [], f => f n
  | n, i :: is, f =>
    match n.children[i]? with
    | some c => n.setChildren (n.children.set i (modifyAt c is f))
    | none => n

/-- The result of AddURL: the returned node (none on a dedup no-op), the
error flag, and the tree after the call. -/
structure AddURLResult where
  node : Option WebNode
  err : Bool
  tree : WebTree

/-- AddURL from webtree.go: parse (error on failure), skip when the
canonical form is already visited, otherwise create the node at
parent depth plus one, append it to the parent's children and mark the
canonical form visited.  The parent pointer argument is a path into the
tree, none standing for a nil parent. -/
def addURLTree (t : WebTree) (urlStr : Str) (parentPath : Option (List Nat)) : AddURLResult :=
  match parseURL urlStr with
  | none => ⟨none, true, t⟩
  | some pu =>
    let urlKey := normalizeURL (some pu)
    if t.visitedURLs.contains urlKey then ⟨none, false, t⟩
    else
      let parent := parentPath.bind (getAt t.rootNode)
      match newWebNode urlStr parent with
      | none => ⟨none, true, t⟩
      | some newNode =>
        let root' :=
          match parentPath with
          | some path => modifyAt t.rootNode path (fun p => p.addChild newNode)
          | none => t.rootNode
        ⟨some newNode, false, ⟨root', t.maxDepth, urlKey :: t.visitedURLs⟩⟩

/-- IsVisited from webtree.go. -/
def isVisited (t : WebTree) (urlStr : Str) : Bool :=
  match parseURL urlStr with
  | none => false
  | some pu => t.visitedURLs.contains (normalizeURL (some pu))

/-- IsAllowedDepth from webtree.go: true when maxDepth is not positive or
the depth does not exceed it. -/
def isAllowedDepth (t : WebTree) (depth : Int) : Bool :=
  decide (t.maxDepth ≤ 0) || decide (depth ≤ t.maxDepth)

/-- The fragment-erased rendering used by findNodeRecursive. -/
def fragErased (u : GoURL) : Str :=
  GoURL.toStr { u with fragment := [] }

mutual

/-- findNodeRecursive from webtree.go: return the current node when its
URL matches the target after both fragments are erased, otherwise search
the children depth-first and return the first hit. -/
def findNodeRecursive (current : WebNode) (target : GoURL) : Option WebNode :=
  match current with
  | .mk uOpt ti d cs =>
    let hit : Bool :=
      match uOpt with
      | some u => decide (fragErased u = fragErased target)
      | none => false
    if hit then some (.mk uOpt ti d cs)
    else findNodeInList cs target

/-- The child loop of findNodeRecursive. -/
def findNodeInList (cs : List WebNode) (target : GoURL) : Option WebNode :=
  match cs with
  | [] => none
  | c :: rest =>
    match findNodeRecursive c target with
    | some r => some r
    | none => findNodeInList rest target

end

/-- FindNode from webtree.go: parse the target (nil on failure) and search
from the root. -/
def findNode (t : WebTree) (urlStr : Str) : Option WebNode :=
  match parseURL urlStr with
  | none => none
  | some target => findNodeRecursive t.rootNode target

mutual

/-- The DFS variant of findNodeRecursive returning the position (child
index path) of the first hit instead of the node; this is how a Go pointer
returned by FindNode is represented when it is used to mutate the tree. -/
def findPathRecursive (current : WebNode) (target : GoURL) : Option (List Nat) :=
  match current with
  | .mk uOpt _ _ cs =>
    let hit : Bool :=
      match uOpt with
      | some u => decide (fragErased u = fragErased target)
      | none => false
    if hit then some []
    else (findPathChildren cs target).map (fun q => q.1 :: q.2)

/-- The child loop of findPathRecursive: index of the child containing the
first hit, together with the path inside that child. -/
def findPathChildren (cs : List WebNode) (target : GoURL) : Option (Nat × List Nat) :=
  match cs with
  | [] => none
  | c :: rest =>
    match findPathRecursive c target with
    | some p => some (0, p)
    | none => (findPathChildren rest target).map (fun q => (q.1 + 1, q.2))

end

/-- FindNode as a path: parse the target and search from the root. -/
def findNodePath (t : WebTree) (urlStr : Str) : Option (List Nat) :=
  match parseURL urlStr with
  | none => none
  | some target => findPathRecursive t.rootNode target

/-- The predicate findNodeRecursive matches a node against: URLs equal
after both fragments are erased. -/
def nodeFragMatch (m : WebNode) (target : GoURL) : Bool :=
  match m.url with
  | some u => decide (fragErased u = fragErased target)
  | none => false

/-- All nodes reachable from a node, in depth-first preorder. -/
def preorder (n : WebNode) : List WebNode :=
  match n with
  | .mk u t d cs => WebNode.mk u t d cs :: (cs.attach.map (fun c => preorder c.1)).flatten
decreasing_by
  have := List.sizeOf_lt_of_mem c.2
  simp only [WebNode.mk.sizeOf_spec]
  omega

/-- The depth invariant of the site tree: every child of every reachable
node sits exactly one level below its parent. -/
inductive DepthOk : WebNode → Prop where
  | node : ∀ u t d cs, (∀ c ∈ cs, c.depth = d + 1) → (∀ c ∈ cs, DepthOk c) →
      DepthOk (WebNode.mk u t d cs)

/-- Concrete root for the C1 witness run. -/
def c1Tree : WebTree :=
  (newWebTree "https://h/docs/root".data 2).getD ⟨.mk none [] 0 [], 0, []⟩

/-- First URL added in the C1 witness run. -/
def c1U1 : Str := "https://h/docs/a#sec".data

/-- Second URL of the C1 witness run: same canonical form as the first. -/
def c1U2 : Str := "https://h/docs/a/".data

/-- Parse result of the first C1 witness URL. -/
def c1PU1 : GoURL := ⟨"https".data, ['h'], "/docs/a".data, [], "sec".data⟩

/-- Parse result of the second C1 witness URL. -/
def c1PU2 : GoURL := ⟨"https".data, ['h'], "/docs/a/".data, [], []⟩

/-- The node the first C1 witness call creates. -/
def c1Node : WebNode := WebNode.mk (some c1PU1) [] 1 []

/-- The tree of the C8 counterexample: a single root for https://h/a. -/
def c8Tree : WebTree :=
  (newWebTree "https://h/a".data 2).getD ⟨.mk none [] 0 [], 0, []⟩

/-- XMLPage from pkg/storage: one harvested page record. -/
structure XMLPage where
  url : Str
  title : Str
  path : Str
  lastFetched : Str
  content : Str
  links : List Str
deriving DecidableEq, Repr

/-- XMLDocument's mutable part: the ordered page records and the
URL-to-index Go map, modelled as an association list searched by first
match.  The immutable root metadata (rootUrl, createdAt) is set once at
construction and never read by the verified operations, so it is
omitted. -/
structure XMLDoc where
  pages : List XMLPage
  pagesByURL : List (Str × Nat)
deriving DecidableEq, Repr

/-- The freshly constructed document: no pages, empty index. -/
def emptyXMLDoc : XMLDoc := ⟨[], []⟩

/-- Lookup in the pagesByURL map. -/
def lookupIdx (m : List (Str × Nat)) (k : Str) : Option Nat :=
  (m.find? (fun e => e.1 == k)).map (fun e => e.2)

/-- SaveNodeContent from pkg/storage: error (none) when the node or its
URL is nil; otherwise build the page record — keyed by the node URL's
String() rendering, fragment and trailing slash included — and replace
the record at the mapped index, or append it and extend the map.
time.Now is passed in as the argument now. -/
def saveNodeContent (d : XMLDoc) (webNode : Option WebNode) (content : Str)
    (now : Str) : Option XMLDoc :=
  match webNode with
  | none => none
  | some n =>
    match n.url with
    | none => none
    | some u =>
      let urlStr := u.toStr
      let path := u.path
      let links := n.children.filterMap (fun c => c.url.map GoURL.toStr)
      let page : XMLPage := ⟨urlStr, n.title, path, now, content, links⟩
      match lookupIdx d.pagesByURL urlStr with
      | some idx => some { d with pages := d.pages.set idx page }
      | none => some ⟨d.pages ++ [page], d.pagesByURL ++ [(urlStr, d.pages.length)]⟩

/-- Well-formedness of the store index: a mapped index points at a page
carrying that URL, an absent key has no page, a present key has exactly
one page. -/
def XMLDoc.WF (d : XMLDoc) : Prop :=
  (∀ u i, lookupIdx d.pagesByURL u = some i →
    ∃ p, d.pages[i]? = some p ∧ p.url = u) ∧
  (∀ u, lookupIdx d.pagesByURL u = none →
    d.pages.countP (fun p => p.url == u) = 0) ∧
  (∀ u i, lookupIdx d.pagesByURL u = some i →
    d.pages.countP (fun p => p.url == u) = 1)

/-- A node for https://h/a, as NewWebNode builds it. -/
def c3NodeA : WebNode := (newWebNode "https://h/a".data none).getD (.mk none [] 0 [])

/-- A node for https://h/a/, same canonical form as c3NodeA but a
different URL string. -/
def c3NodeB : WebNode := (newWebNode "https://h/a/".data none).getD (.mk none [] 0 [])

/-- First save of the C3 witness run. -/
def c3D1 : XMLDoc := (saveNodeContent emptyXMLDoc (some c3NodeA) ['x'] ['t']).getD emptyXMLDoc

/-- Second save of the C3 witness run, same node, new content. -/
def c3D2 : XMLDoc := (saveNodeContent c3D1 (some c3NodeA) ['y'] ['s']).getD emptyXMLDoc

/-- The parsed URL of c3NodeA. -/
def c3URL : GoURL := ⟨"https".data, ['h'], "/a".data, [], []⟩

/-- removeFragment from harvester.go: drop the fragment, or return the
input unchanged when it does not parse. -/
def removeFragment (linkStr : Str) : Str :=
  match parseURL linkStr with
  | none => linkStr
  | some pu => GoURL.toStr { pu with fragment := [] }

/-- The diagnostic lines the orchestrator prints, with the printf
formatting abstracted to the payload: an accepted-link report, the two
debug-only rejection lines, and the three per-link failure reports of the
download loop. -/
inductive OutLine where
  | href (url : Str)
  | filteredDup (link : Str)
  | filteredNotParent (link : Str)
  | fetchFail (url : Str)
  | extractFail (url : Str)
  | saveFail (url : Str)
deriving DecidableEq, Repr

/-- What the fetch-and-extract collaborators deliver for one URL: the
extracted title, the cleaned-content result (none = extraction failure),
and the outbound links.  A fetch environment maps a URL to none on
transport failure. -/
structure PageDoc where
  title : Str
  contentRes : Option Str
  links : List Str
deriving DecidableEq, Repr

/-- A fetch environment: what FetchPage plus the extractors return per
URL. -/
abbrev FetchEnv := Str → Option PageDoc

/-- The PrintedURLs set and emitted lines during exploration. -/
structure ExpState where
  printed : List Str
  lines : List OutLine
deriving DecidableEq, Repr

/-- processLink from harvester.go (exploration mode): an accepted link is
reported once per fragment-stripped URL; a rejected or duplicate link is
reported only in debug mode. -/
def processLink (rootURL : Str) (t : WebTree) (debug : Bool) (s : ExpState)
    (link : Str) : ExpState :=
  if isParentURL rootURL link then
    let cleanLink := removeFragment link
    if s.printed.contains cleanLink then s
    else ⟨cleanLink :: s.printed, s.lines ++ [.href cleanLink]⟩
  else if debug then
    if isVisited t link then ⟨s.printed, s.lines ++ [.filteredDup link]⟩
    else ⟨s.printed, s.lines ++ [.filteredNotParent link]⟩
  else s

/-- The result of Explore: success flag, the fetched URLs in order, the
final report state, and the tree (root title set on success). -/
structure ExpResult where
  ok : Bool
  fetched : List Str
  state : ExpState
  tree : WebTree

/-- Explore from harvester.go: fetch the root page once (fatal on
failure), set the root title, then classify and report every extracted
link; link extraction fails only when the root URL does not parse. -/
def exploreRun (env : FetchEnv) (rootURL : Str) (debug : Bool) (t0 : WebTree) :
    ExpResult :=
  match env rootURL with
  | none => ⟨false, [rootURL], ⟨[], []⟩, t0⟩
  | some doc =>
    let t1 : WebTree := ⟨t0.rootNode.setTitle doc.title, t0.maxDepth, t0.visitedURLs⟩
    match parseURL rootURL with
    | none => ⟨false, [rootURL], ⟨[], []⟩, t1⟩
    | some _ =>
      ⟨true, [rootURL], doc.links.foldl (processLink rootURL t1 debug) ⟨[], []⟩, t1⟩

/-- Project an accepted-link report line. -/
def hrefOf : OutLine → Option Str
  | .href u => some u
  | _ => none

/-- The accepted-link report lines among the emitted lines. -/
def hrefLines (ls : List OutLine) : List Str := ls.filterMap hrefOf

/-- The accepted-link report lines Explore emits, computed directly: one
fragment-stripped URL per accepted link not already printed. -/
def exploreSpecLines (rootURL : Str) : (links : List Str) → (printed : List Str) → List Str
  | [], _ => []
  | k :: ks, printed =>
    if isParentURL rootURL k then
      let c := removeFragment k
      if printed.contains c then exploreSpecLines rootURL ks printed
      else c :: exploreSpecLines rootURL ks (c :: printed)
    else exploreSpecLines rootURL ks printed

/-- C4 counterexample root URL. -/
def c4Root : Str := "https://h/a/b".data

/-- C4 counterexample link, accepted (its path is the root's parent
path). -/
def c4L1 : Str := "https://h/a".data

/-- C4 counterexample link: same canonical form as c4L1 (trailing slash)
and also accepted. -/
def c4L2 : Str := "https://h/a/".data

/-- The root page of the C4 counterexample run, carrying both links. -/
def c4Doc : PageDoc := ⟨['T'], some ['c'], [c4L1, c4L2]⟩

/-- The fetch environment of the C4 counterexample run. -/
def c4Env : FetchEnv := fun s => if s = c4Root then some c4Doc else none

/-- The tree of the C4 counterexample run. -/
def c4Tree : WebTree := (newWebTree c4Root 2).getD ⟨.mk none [] 0 [], 0, []⟩

/-- The state threaded through Download: the site tree, the PrintedURLs
set, the XML store, the fetched URLs in order, and the emitted report
lines. -/
structure DLState where
  tree : WebTree
  printed : List Str
  store : XMLDoc
  fetched : List Str
  lines : List OutLine

/-- The accepted-link report of the download loop: print the
fragment-stripped link once. -/
def printStep (s : DLState) (cleanLink : Str) : DLState :=
  if s.printed.contains cleanLink then s
  else { s with printed := cleanLink :: s.printed, lines := s.lines ++ [.href cleanLink] }

/-- Set the title of the last child of a children list: the newly added
node AddURL just appended. -/
def setTitleLast (ti : Str) : List WebNode → List WebNode
  | [] => []
  | [c] => [c.setTitle ti]
  | c :: cs => c :: setTitleLast ti cs

/-- The tree-side effect of assigning Title through the pointer AddURL
returned: the node sits as the last child of the parent the path points
at. -/
def setNewChildTitle (t : WebTree) (parentPath : Option (List Nat)) (ti : Str) : WebTree :=
  match parentPath with
  | none => t
  | some path =>
    ⟨modifyAt t.rootNode path (fun p => p.setChildren (setTitleLast ti p.children)),
      t.maxDepth, t.visitedURLs⟩

/-- processLinkAndDownload from harvester.go: report an accepted link
(deduplicated by fragment-stripped URL), then, in download-all mode,
resolve it through AddURL under the node FindNode(RootURL) returns, fetch
the fresh node's page, set its title, extract its content and save it;
a fetch or extraction failure emits a report line and skips only this
link; a save failure is reported and the loop continues. -/
def processLinkAndDownload (env : FetchEnv) (rootURL : Str) (dlAll debug : Bool)
    (now : Str) (s : DLState) (link : Str) : DLState :=
  if isParentURL rootURL link then
    let s1 := printStep s (removeFragment link)
    if dlAll then
      let parentPath := findNodePath s1.tree rootURL
      let r := addURLTree s1.tree link parentPath
      let s2 := { s1 with tree := r.tree }
      match r.node with
      | none => s2
      | some newNode =>
        match newNode.url with
        | none => s2
        | some nu =>
          let s3 := { s2 with fetched := s2.fetched ++ [nu.toStr] }
          match env nu.toStr with
          | none => { s3 with lines := s3.lines ++ [.fetchFail nu.toStr] }
          | some doc2 =>
            let node2 := newNode.setTitle doc2.title
            let s4 := { s3 with tree := setNewChildTitle s3.tree parentPath doc2.title }
            match doc2.contentRes with
            | none => { s4 with lines := s4.lines ++ [.extractFail nu.toStr] }
            | some c2 =>
              match saveNodeContent s4.store (some node2) c2 now with
              | none => { s4 with lines := s4.lines ++ [.saveFail nu.toStr] }
              | some st2 => { s4 with store := st2 }
    else s1
  else if debug then
    if isVisited s.tree link then { s with lines := s.lines ++ [.filteredDup link] }
    else { s with lines := s.lines ++ [.filteredNotParent link] }
  else s

/-- The outcome of Download: success flag and final state. -/
structure DLResult where
  ok : Bool
  state : DLState

/-- Download from harvester.go: fetch the root page (fatal on failure),
set the root title, extract and save the root content (fatal on
failure), extract the links (fails only when the root URL does not
parse), then run processLinkAndDownload over every link; the
CreateIndexFile call of the XML storage is a no-op. -/
def downloadRun (env : FetchEnv) (rootURL : Str) (dlAll debug : Bool) (now : Str)
    (t0 : WebTree) (st0 : XMLDoc) : DLResult :=
  match env rootURL with
  | none => ⟨false, ⟨t0, [], st0, [rootURL], []⟩⟩
  | some doc =>
    let t1 : WebTree := ⟨t0.rootNode.setTitle doc.title, t0.maxDepth, t0.visitedURLs⟩
    let s1 : DLState := ⟨t1, [], st0, [rootURL], []⟩
    match doc.contentRes with
    | none => ⟨false, s1⟩
    | some content =>
      match saveNodeContent st0 (some t1.rootNode) content now with
      | none => ⟨false, s1⟩
      | some st1 =>
        match parseURL rootURL with
        | none => ⟨false, { s1 with store := st1 }⟩
        | some _ =>
          ⟨true, doc.links.foldl (processLinkAndDownload env rootURL dlAll debug now)
            { s1 with store := st1 }⟩

/-- C6 witness root URL. -/
def c6Root : Str := "https://h/docs/p".data

/-- C6 witness link: accepted (path equals the root's parent path), but
its fetch fails in the witness environment. -/
def c6Link : Str := "https://h/docs".data

/-- Root page of the C6 witness run. -/
def c6Doc : PageDoc := ⟨['T'], some ['c'], [c6Link]⟩

/-- C6 witness environment: only the root fetch succeeds. -/
def c6Env : FetchEnv := fun s => if s = c6Root then some c6Doc else none

/-- C6 witness tree. -/
def c6Tree : WebTree := (newWebTree c6Root 2).getD ⟨.mk none [] 0 [], 0, []⟩

/-- Parsed C6 witness root. -/
def c6RootPU : GoURL := ⟨"https".data, ['h'], "/docs/p".data, [], []⟩

/-- Parsed C6 witness link. -/
def c6NU : GoURL := ⟨"https".data, ['h'], "/docs".data, [], []⟩

/-- The node AddURL creates for the C6 witness link. -/
def c6Node : WebNode := .mk (some c6NU) [] 1 []

/-- Loop state right before the C6 witness link is processed. -/
def c6S0 : DLState := ⟨c6Tree, [], emptyXMLDoc, [], []⟩

/-- The canonical keys of the accepted links, in order. -/
def acceptedKeys (rootURL : Str) (links : List Str) : List Str :=
  (links.filter (fun l => isParentURL rootURL l)).filterMap
    (fun l => (parseURL l).map (fun pu => normalizeURL (some pu)))

/-- The URLs the download loop fetches, computed directly: one fetch per
accepted link whose canonical form is not yet visited. -/
def downloadFetchSpec (rootURL : Str) : (links : List Str) → (visited : List Str) → List Str
  | [], _ => []
  | l :: ls, v =>
    if isParentURL rootURL l then
      match parseURL l with
      | none => downloadFetchSpec rootURL ls v
      | some pu =>
        if v.contains (normalizeURL (some pu)) then downloadFetchSpec rootURL ls v
        else pu.toStr :: downloadFetchSpec rootURL ls (normalizeURL (some pu) :: v)
    else downloadFetchSpec rootURL ls v

/-- The canonical keys of the fetches of downloadFetchSpec, in order. -/
def downloadKeySpec (rootURL : Str) : (links : List Str) → (visited : List Str) → List Str
  | [], _ => []
  | l :: ls, v =>
    if isParentURL rootURL l then
      match parseURL l with
      | none => downloadKeySpec rootURL ls v
      | some pu =>
        if v.contains (normalizeURL (some pu)) then downloadKeySpec rootURL ls v
        else normalizeURL (some pu) :: downloadKeySpec rootURL ls (normalizeURL (some pu) :: v)
    else downloadKeySpec rootURL ls v

/-- Two fetch results agree on everything the download loop reads from a
non-root page: title and extracted content; the outbound links may
differ arbitrarily. -/
def docAgree : Option PageDoc → Option PageDoc → Prop
  | none, none => True
  | some d, some d' => d.title = d'.title ∧ d.contentRes = d'.contentRes
  | _, _ => False

/-- Two environments agree at the root and, elsewhere, on everything but
the outbound links of the fetched pages. -/
def envAgree (rootURL : Str) (env env' : FetchEnv) : Prop :=
  env rootURL = env' rootURL ∧ ∀ u, u ≠ rootURL → docAgree (env u) (env' u)

/-- Replace only the maximum depth of a tree. -/
def setD (t : WebTree) (d : Int) : WebTree := ⟨t.rootNode, d, t.visitedURLs⟩

/-- Replace only the maximum depth inside a download state. -/
def setDS (s : DLState) (d : Int) : DLState :=
  ⟨setD s.tree d, s.printed, s.store, s.fetched, s.lines⟩

lemma lastIndexOf_eq_none_iff (c : Char) (s : Str) :
    lastIndexOf c s = none ↔ s.any (fun x => x = c) = false := by
  induction s with
  | nil => simp [lastIndexOf]
  | cons x xs ih =>
    simp only [lastIndexOf, List.any_cons]
    cases h : lastIndexOf c xs with
    | some i => simp [h, ← ih, Bool.or_eq_false_iff]
    | none =>
      rw [h] at ih
      by_cases hx : x = c <;> simp [hx, Bool.or_eq_false_iff, ← ih]

lemma lastIndexOf_mem (c : Char) (s : Str) (i : Nat)
    (h : lastIndexOf c s = some i) : s.any (fun x => x = c) = true := by
  cases ha : s.any (fun x => x = c) with
  | true => rfl
  | false => rw [(lastIndexOf_eq_none_iff c s).mpr ha] at h; cases h

lemma take_lastIndexOf_eq_dropLastSegment (s : Str) (i : Nat)
    (h : lastIndexOf '/' s = some i) : s.take i = dropLastSegment s := by
  induction s generalizing i with
  | nil => cases h
  | cons x xs ih =>
    simp only [lastIndexOf] at h
    cases hxs : lastIndexOf '/' xs with
    | some j =>
      rw [hxs] at h
      injection h with h
      subst h
      have hmem : xs.any (fun y => y = '/') = true := lastIndexOf_mem _ _ _ hxs
      have hslash : ('/' : Char) ∈ xs.reverse := by
        rcases List.any_eq_true.mp hmem with ⟨y, hy, hyc⟩
        have hy' : y = '/' := of_decide_eq_true hyc
        subst hy'
        exact List.mem_reverse.mpr hy
      obtain ⟨a, l, hd⟩ :
          ∃ a l, xs.reverse.dropWhile (fun c => !decide (c = '/')) = a :: l := by
        cases hdw : xs.reverse.dropWhile (fun c => !decide (c = '/')) with
        | nil =>
          have h2 := List.dropWhile_eq_nil_iff.mp hdw '/' hslash
          simp at h2
        | cons a l => exact ⟨a, l, rfl⟩
      have hIH : xs.take j = l.reverse := by
        have h3 := ih j hxs
        simp only [dropLastSegment, decide_not, hd] at h3
        simpa using h3
      have hstep : dropLastSegment (x :: xs) = x :: l.reverse := by
        simp only [dropLastSegment, decide_not, List.reverse_cons,
          List.dropWhile_append, hd]
        simp
      rw [hstep, List.take_succ_cons, hIH]
    | none =>
      rw [hxs] at h
      by_cases hx : x = '/'
      · rw [if_pos hx] at h
        injection h with h
        subst h
        subst hx
        have hno : xs.any (fun y => y = '/') = false :=
          (lastIndexOf_eq_none_iff _ _).mp hxs
        have hall : xs.reverse.dropWhile (fun c => !decide (c = '/')) = [] := by
          rw [List.dropWhile_eq_nil_iff]
          intro y hy
          have hy' : y ∈ xs := List.mem_reverse.mp hy
          have hyn : ¬ (y = '/') := by
            intro hc
            have h4 : xs.any (fun y => y = '/') = true :=
              List.any_eq_true.mpr ⟨y, hy', by simp [hc]⟩
            rw [hno] at h4
            cases h4
          simp [hyn]
        have hstep : dropLastSegment ('/' :: xs) = [] := by
          simp only [dropLastSegment, decide_not, List.reverse_cons,
            List.dropWhile_append, hall]
          simp [List.dropWhile]
        simp [hstep]
      · rw [if_neg hx] at h
        cases h

/-- Claim C2 fails on the code: for root https://h/x/ and candidate
https://h the code accepts (it strips the root path's trailing slash
before computing the parent path, giving parent path empty), while the
classifier exactly as the claim words it rejects. -/
theorem isParentURL_claim_counterexample :
    isParentURL c2Root c2Link = true ∧ specLinkClassifierC2 c2Root c2Link = false := by
  constructor <;> decide

/-- C2 (amended): the link classifier accepts a candidate if and only if
the hosts are equal, the root path stripped of trailing slashes contains a
slash, and either the candidate's slash-stripped path equals the parent
path of the stripped root path (the stripped root path with its final
slash-delimited segment removed) or both that parent path and the
candidate's stripped path contain the topic keyword; an unparsable root or
candidate is rejected, never an error. -/
theorem isParentURL_amended_characterization (rootURL link : Str) :
    isParentURL rootURL link = specLinkClassifierAmended rootURL link := by
  unfold isParentURL specLinkClassifierAmended
  cases parseURL rootURL with
  | none => rfl
  | some r =>
    cases parseURL link with
    | none => rfl
    | some l =>
      by_cases hh : r.host = l.host
      · simp only [if_pos hh, hh]
        cases hli : lastIndexOf '/' (trimRightChar '/' r.path) with
        | none =>
          have hany := (lastIndexOf_eq_none_iff '/' (trimRightChar '/' r.path)).mp hli
          simp [hany]
        | some i =>
          have hany : (trimRightChar '/' r.path).any (fun c => c = '/') = true :=
            lastIndexOf_mem _ _ _ hli
          have htake := take_lastIndexOf_eq_dropLastSegment _ _ hli
          by_cases heq :
              trimRightChar '/' l.path = (trimRightChar '/' r.path).take i
          · simp [heq, htake, hany]
          · rw [htake] at heq
            simp [htake, heq, hany]
      · simp [hh]

/-- Induction over a WebNode through membership in the children list. -/
theorem WebNode.ind {motive : WebNode → Prop}
    (h : ∀ u t d cs, (∀ c ∈ cs, motive c) → motive (WebNode.mk u t d cs)) :
    ∀ n, motive n
  | .mk u t d cs => h u t d cs (fun c hc => WebNode.ind h c)
decreasing_by
  have := List.sizeOf_lt_of_mem hc
  simp only [WebNode.mk.sizeOf_spec]
  omega

lemma preorder_unfold (u : Option GoURL) (t : Str) (d : Int) (cs : List WebNode) :
    preorder (WebNode.mk u t d cs) =
      WebNode.mk u t d cs :: (cs.map preorder).flatten := by
  simp only [preorder]
  rw [← List.attach_map_coe cs preorder]

lemma getAt_modifyAt (path : List Nat) (r p0 : WebNode) (f : WebNode → WebNode)
    (h : getAt r path = some p0) :
    getAt (modifyAt r path f) path = some (f p0) := by
  induction path generalizing r with
  | nil =>
    simp only [getAt] at h
    injection h with h
    subst h
    simp [getAt, modifyAt]
  | cons i is ih =>
    simp only [getAt] at h
    cases hc : r.children[i]? with
    | none => rw [hc] at h; cases h
    | some c =>
      rw [hc] at h
      have hlen : i < r.children.length := by
        rcases List.getElem?_eq_some.mp hc with ⟨hl, _⟩
        exact hl
      simp only [modifyAt, hc, getAt, WebNode.setChildren]
      cases r with
      | mk u t d cs =>
        simp only [WebNode.children] at hc hlen ⊢
        rw [List.getElem?_set_self hlen]
        exact ih c h

lemma set_self_of_getElem? {α : Type} (l : List α) (i : Nat) (c : α)
    (h : l[i]? = some c) : l.set i c = l := by
  rcases List.getElem?_eq_some.mp h with ⟨hl, he⟩
  subst he
  apply List.ext_getElem?
  intro j
  rw [List.getElem?_set]
  by_cases hij : i = j
  · subst hij
    simp [hl, List.getElem?_eq_getElem]
  · simp [hij]

lemma modifyAt_of_getAt_none (path : List Nat) (r : WebNode) (f : WebNode → WebNode)
    (h : getAt r path = none) : modifyAt r path f = r := by
  induction path generalizing r with
  | nil => simp [getAt] at h
  | cons i is ih =>
    simp only [getAt] at h
    cases hc : r.children[i]? with
    | none => simp [modifyAt, hc]
    | some c =>
      rw [hc] at h
      simp only [modifyAt, hc]
      cases r with
      | mk u t d cs =>
        simp only [WebNode.children] at hc ⊢
        rw [ih c h, set_self_of_getElem? cs i c hc]
        rfl

lemma newWebNode_parse (u : Str) (pu : GoURL) (p : Option WebNode)
    (h : parseURL u = some pu) :
    newWebNode u p = some (WebNode.mk (some pu) []
      (match p with
       | some q => q.depth + 1
       | none => 0) []) := by
  simp [newWebNode, h]

/-- C1: after a successful AddURL, a second AddURL with any URL of the
same canonical form is a no-op success: it returns no node and no error
and leaves the tree (visited set, every node, every children list)
unchanged; and the first call appended exactly the one new node to the
parent's children. -/
theorem addURL_idempotent_dedup
    (t : WebTree) (u1 u2 : Str) (pp1 pp2 : Option (List Nat))
    (pu1 pu2 : GoURL) (n : WebNode)
    (h1 : parseURL u1 = some pu1) (h2 : parseURL u2 = some pu2)
    (hkey : normalizeURL (some pu2) = normalizeURL (some pu1))
    (hfirst : (addURLTree t u1 pp1).node = some n) :
    addURLTree (addURLTree t u1 pp1).tree u2 pp2 =
      ⟨none, false, (addURLTree t u1 pp1).tree⟩ ∧
    (∀ path p0, pp1 = some path → getAt t.rootNode path = some p0 →
      getAt (addURLTree t u1 pp1).tree.rootNode path = some (p0.addChild n)) := by
  cases hcontains : t.visitedURLs.contains (normalizeURL (some pu1)) with
  | true =>
    exfalso
    have hmem : normalizeURL (some pu1) ∈ t.visitedURLs := by simpa using hcontains
    simp [addURLTree, h1, hmem] at hfirst
  | false =>
    have hnew := newWebNode_parse u1 pu1 (pp1.bind (getAt t.rootNode)) h1
    simp only [addURLTree, h1, hnew, hcontains, Bool.false_eq_true, if_false] at hfirst ⊢
    have hn : WebNode.mk (some pu1) []
        (match pp1.bind (getAt t.rootNode) with
         | some q => q.depth + 1
         | none => 0) [] = n := by
      simpa using hfirst
    constructor
    · simp only [addURLTree, h2, hkey, WebTree.visitedURLs]
      have hcc : ((normalizeURL (some pu1) :: t.visitedURLs).contains
          (normalizeURL (some pu1))) = true := by
        simp [List.contains_cons]
      rw [hcc]
      simp
    · intro path p0 hpp hget
      subst hpp
      simp only [WebTree.rootNode]
      rw [← hn]
      exact getAt_modifyAt path t.rootNode p0 _ hget

theorem addURL_idempotent_dedup_witness :
    addURLTree (addURLTree c1Tree c1U1 (some [])).tree c1U2 (some []) =
      ⟨none, false, (addURLTree c1Tree c1U1 (some [])).tree⟩ ∧
    (∀ path p0, (some [] : Option (List Nat)) = some path →
      getAt c1Tree.rootNode path = some p0 →
      getAt (addURLTree c1Tree c1U1 (some [])).tree.rootNode path =
        some (p0.addChild c1Node)) :=
  addURL_idempotent_dedup c1Tree c1U1 c1U2 (some []) (some []) c1PU1 c1PU2 c1Node
    (by decide) (by decide) (by decide) rfl

lemma mem_of_getElem?' {α : Type} {l : List α} {i : Nat} {c : α}
    (h : l[i]? = some c) : c ∈ l := by
  rcases List.getElem?_eq_some.mp h with ⟨hl, he⟩
  subst he
  exact List.getElem_mem hl

lemma addChild_depth (p c : WebNode) : (p.addChild c).depth = p.depth := by
  cases p
  rfl

lemma modifyAt_depth_eq (f : WebNode → WebNode) (hf : ∀ m, (f m).depth = m.depth) :
    ∀ (path : List Nat) (r : WebNode), (modifyAt r path f).depth = r.depth
  | [], r => hf r
  | i :: is, r => by
    cases hc : r.children[i]? with
    | none => simp [modifyAt, hc]
    | some c =>
      cases r with
      | mk u t d cs => simp [modifyAt, hc, WebNode.setChildren, WebNode.depth]

lemma depthOk_addChild (p c : WebNode) (hp : DepthOk p) (hc : DepthOk c)
    (hd : c.depth = p.depth + 1) : DepthOk (p.addChild c) := by
  cases p with
  | mk u t d cs =>
    cases hp with
    | node _ _ _ _ hdep hok =>
      simp only [WebNode.addChild, WebNode.setChildren, WebNode.children]
      constructor
      · intro x hx
        rcases List.mem_append.mp hx with hx | hx
        · exact hdep x hx
        · rw [List.mem_singleton.mp hx]
          exact hd
      · intro x hx
        rcases List.mem_append.mp hx with hx | hx
        · exact hok x hx
        · rw [List.mem_singleton.mp hx]
          exact hc

lemma depthOk_modifyAt_addChild :
    ∀ (path : List Nat) (r p0 nn : WebNode), getAt r path = some p0 → DepthOk r →
      DepthOk nn → nn.depth = p0.depth + 1 →
      DepthOk (modifyAt r path (fun p => p.addChild nn)) := by
  intro path
  induction path with
  | nil =>
    intro r p0 nn hget hr hnn hd
    simp only [getAt] at hget
    injection hget with hget
    subst hget
    simpa [modifyAt] using depthOk_addChild r nn hr hnn hd
  | cons i is ih =>
    intro r p0 nn hget hr hnn hd
    simp only [getAt] at hget
    cases hc : r.children[i]? with
    | none => rw [hc] at hget; cases hget
    | some c =>
      rw [hc] at hget
      cases r with
      | mk u t d cs =>
        simp only [WebNode.children] at hc
        simp only [modifyAt, WebNode.children, hc, WebNode.setChildren]
        cases hr with
        | node _ _ _ _ hdep hok =>
          constructor
          · intro x hx
            rcases List.mem_or_eq_of_mem_set hx with hx | hx
            · exact hdep x hx
            · subst hx
              rw [modifyAt_depth_eq _ (fun m => addChild_depth m nn) is c]
              exact hdep c (mem_of_getElem?' hc)
          · intro x hx
            rcases List.mem_or_eq_of_mem_set hx with hx | hx
            · exact hok x hx
            · subst hx
              exact ih c p0 nn hget (hok c (mem_of_getElem?' hc)) hnn hd

/-- C5: the root of a freshly built WebTree has depth zero and satisfies
the depth invariant; AddURL preserves the depth invariant over every
reachable node; and a node AddURL creates under an in-tree parent has
depth exactly the parent's depth plus one. -/
theorem webtree_depth_invariant :
    (∀ rootURL maxD t, newWebTree rootURL maxD = some t →
        t.rootNode.depth = 0 ∧ DepthOk t.rootNode) ∧
    (∀ t u pp, DepthOk t.rootNode →
        DepthOk (addURLTree t u pp).tree.rootNode) ∧
    (∀ t u pp path p0 n, pp = some path → getAt t.rootNode path = some p0 →
        (addURLTree t u pp).node = some n → n.depth = p0.depth + 1) := by
  refine ⟨?_, ?_, ?_⟩
  · intro rootURL maxD t ht
    cases hp : parseURL rootURL with
    | none => simp [newWebTree, newWebNode, hp] at ht
    | some pu =>
      simp only [newWebTree, newWebNode, hp] at ht
      injection ht with ht
      subst ht
      exact ⟨rfl, by constructor <;> simp⟩
  · intro t u pp hok
    cases hp : parseURL u with
    | none => simpa [addURLTree, hp] using hok
    | some pu =>
      cases hcontains : t.visitedURLs.contains (normalizeURL (some pu)) with
      | true =>
        have hmem : normalizeURL (some pu) ∈ t.visitedURLs := by simpa using hcontains
        simpa [addURLTree, hp, hmem] using hok
      | false =>
        have hnew := newWebNode_parse u pu (pp.bind (getAt t.rootNode)) hp
        simp only [addURLTree, hp, hcontains, hnew, Bool.false_eq_true, if_false]
        cases pp with
        | none => simpa using hok
        | some path =>
          cases hget : getAt t.rootNode path with
          | none =>
            simp only [Option.some_bind, hget]
            rw [modifyAt_of_getAt_none path t.rootNode _ hget]
            exact hok
          | some p0 =>
            simp only [Option.some_bind, hget]
            exact depthOk_modifyAt_addChild path t.rootNode p0 _ hget hok
              (by constructor <;> simp) rfl
  · intro t u pp path p0 n hpp hget hnode
    subst hpp
    cases hp : parseURL u with
    | none => simp [addURLTree, hp] at hnode
    | some pu =>
      cases hcontains : t.visitedURLs.contains (normalizeURL (some pu)) with
      | true =>
        have hmem : normalizeURL (some pu) ∈ t.visitedURLs := by simpa using hcontains
        simp [addURLTree, hp, hmem] at hnode
      | false =>
        have hnew := newWebNode_parse u pu ((some path).bind (getAt t.rootNode)) hp
        simp only [addURLTree, hp, hcontains, hnew, Bool.false_eq_true, if_false] at hnode
        have hn : WebNode.mk (some pu) []
            (match (some path).bind (getAt t.rootNode) with
             | some q => q.depth + 1
             | none => 0) [] = n := by
          simpa using hnode
        subst hn
        simp [WebNode.depth, hget]

theorem webtree_depth_invariant_witness :
    (c1Tree.rootNode.depth = 0 ∧ DepthOk c1Tree.rootNode) ∧
    DepthOk (addURLTree c1Tree c1U1 (some [])).tree.rootNode ∧
    c1Node.depth = c1Tree.rootNode.depth + 1 :=
  ⟨webtree_depth_invariant.1 "https://h/docs/root".data 2 c1Tree rfl,
    webtree_depth_invariant.2.1 c1Tree c1U1 (some [])
      (webtree_depth_invariant.1 "https://h/docs/root".data 2 c1Tree rfl).2,
    webtree_depth_invariant.2.2 c1Tree c1U1 (some []) [] c1Tree.rootNode c1Node
      rfl rfl rfl⟩

lemma findNodeInList_eq_find? (target : GoURL) (cs : List WebNode)
    (hIH : ∀ c ∈ cs, findNodeRecursive c target =
      (preorder c).find? (fun m => nodeFragMatch m target)) :
    findNodeInList cs target =
      ((cs.map preorder).flatten).find? (fun m => nodeFragMatch m target) := by
  induction cs with
  | nil => simp [findNodeInList]
  | cons c rest ih =>
    simp only [findNodeInList, List.map_cons, List.flatten_cons, List.find?_append]
    rw [← hIH c (List.mem_cons_self c rest)]
    cases hfc : findNodeRecursive c target with
    | some r => simp
    | none => simp [ih (fun x hx => hIH x (List.mem_cons_of_mem c hx))]

lemma findNodeRecursive_eq_find? (target : GoURL) :
    ∀ n, findNodeRecursive n target =
      (preorder n).find? (fun m => nodeFragMatch m target) := by
  apply WebNode.ind
  intro u' ti d cs hIH
  rw [preorder_unfold, List.find?_cons]
  simp only [findNodeRecursive]
  have hmatch : nodeFragMatch (WebNode.mk u' ti d cs) target =
      (match u' with
       | some uu => decide (fragErased uu = fragErased target)
       | none => false) := rfl
  rw [← hmatch]
  cases hhit : nodeFragMatch (WebNode.mk u' ti d cs) target with
  | true => simp
  | false => simp [findNodeInList_eq_find? target cs hIH]

/-- C8 (amended): FindNode performs a depth-first preorder search and
returns the first node whose URL equals the query after dropping the
fragment from both sides only (trailing slashes stay significant), and
returns nil when the query is unparsable. -/
theorem findNode_fragment_dfs (t : WebTree) (u : Str) :
    (parseURL u = none → findNode t u = none) ∧
    (∀ target, parseURL u = some target →
      findNode t u = (preorder t.rootNode).find? (fun m => nodeFragMatch m target)) := by
  constructor
  · intro h
    simp [findNode, h]
  · intro target h
    simp only [findNode, h]
    exact findNodeRecursive_eq_find? target t.rootNode

/-- Claim C8 fails on the code: the tree holds a node whose canonical form
equals that of the query https://h/a/, yet FindNode misses it, because
findNodeRecursive compares fragment-erased strings without stripping the
trailing path slash. -/
theorem findNode_canonical_counterexample :
    newWebTree "https://h/a".data 2 = some c8Tree ∧
    normalizeURL c8Tree.rootNode.url = normalizeURL (parseURL "https://h/a/".data) ∧
    findNode c8Tree "https://h/a/".data = none := by
  refine ⟨rfl, by decide, rfl⟩

theorem findNode_fragment_dfs_witness :
    findNode c8Tree "https://h/a#x".data =
      (preorder c8Tree.rootNode).find?
        (fun m => nodeFragMatch m ⟨"https".data, ['h'], "/a".data, [], ['x']⟩) :=
  (findNode_fragment_dfs c8Tree "https://h/a#x".data).2
    ⟨"https".data, ['h'], "/a".data, [], ['x']⟩ rfl

lemma findPathChildren_spec (target : GoURL) (cs : List WebNode)
    (hIH : ∀ c ∈ cs,
      (match findPathRecursive c target with
       | some p => getAt c p
       | none => none) = findNodeRecursive c target ∧
      (findPathRecursive c target).isSome = (findNodeRecursive c target).isSome) :
    (match findPathChildren cs target with
     | some q => (cs[q.1]?).bind (fun c => getAt c q.2)
     | none => none) = findNodeInList cs target ∧
    (findPathChildren cs target).isSome = (findNodeInList cs target).isSome := by
  induction cs with
  | nil => simp [findPathChildren, findNodeInList]
  | cons c rest ih =>
    obtain ⟨hbind, hsome⟩ := hIH c (List.mem_cons_self c rest)
    obtain ⟨ihbind, ihsome⟩ := ih (fun x hx => hIH x (List.mem_cons_of_mem c hx))
    simp only [findPathChildren, findNodeInList]
    cases hfp : findPathRecursive c target with
    | some p =>
      rw [hfp] at hbind hsome
      cases hfn : findNodeRecursive c target with
      | none => rw [hfn] at hsome; cases hsome
      | some r =>
        rw [hfn] at hbind
        simp only [List.getElem?_cons_zero, Option.some_bind]
        exact ⟨hbind, rfl⟩
    | none =>
      rw [hfp] at hbind hsome
      cases hfn : findNodeRecursive c target with
      | some r => rw [hfn] at hsome; cases hsome
      | none =>
        cases hrest : findPathChildren rest target with
        | none =>
          rw [hrest] at ihbind ihsome
          simp only [Option.map_none', Option.isSome_none]
          exact ⟨ihbind, ihsome⟩
        | some q =>
          rw [hrest] at ihbind ihsome
          simp only [Option.map_some', List.getElem?_cons_succ]
          exact ⟨ihbind, ihsome⟩

lemma findPathRecursive_spec (target : GoURL) :
    ∀ n, (match findPathRecursive n target with
          | some p => getAt n p
          | none => none) = findNodeRecursive n target ∧
      (findPathRecursive n target).isSome = (findNodeRecursive n target).isSome := by
  apply WebNode.ind
  intro u' ti d cs hIH
  simp only [findPathRecursive, findNodeRecursive]
  cases hhit : (match u' with
    | some uu => decide (fragErased uu = fragErased target)
    | none => false) with
  | true => simp [getAt]
  | false =>
    simp only [Bool.false_eq_true, if_false]
    obtain ⟨hbind, hsome⟩ := findPathChildren_spec target cs hIH
    cases hrest : findPathChildren cs target with
    | none =>
      rw [hrest] at hbind hsome
      simp only [Option.map_none', Option.isSome_none]
      exact ⟨hbind, hsome⟩
    | some q =>
      rw [hrest] at hbind hsome
      have hbind' : cs[q.1]?.bind (fun c => getAt c q.2) = findNodeInList cs target :=
        hbind
      constructor
      · show getAt (WebNode.mk u' ti d cs) (q.1 :: q.2) = findNodeInList cs target
        rw [← hbind']
        simp only [getAt, WebNode.children]
        cases cs[q.1]? <;> rfl
      · show ((some q).map (fun q => q.1 :: q.2)).isSome =
          (findNodeInList cs target).isSome
        simp [← hsome]

/-- FindNode-as-a-path denotes exactly FindNode: following the returned
child-index path from the root lands on the node the pointer-returning Go
FindNode yields.  This justifies representing the parent pointer of
AddURL by a path. -/
lemma findNodePath_spec (t : WebTree) (u : Str) :
    (match findNodePath t u with
     | some p => getAt t.rootNode p
     | none => none) = findNode t u := by
  simp only [findNodePath, findNode]
  cases parseURL u with
  | none => rfl
  | some target => exact (findPathRecursive_spec target t.rootNode).1

lemma emptyXMLDoc_wf : XMLDoc.WF emptyXMLDoc := by
  refine ⟨?_, ?_, ?_⟩ <;> intro u <;> simp [lookupIdx, emptyXMLDoc]

lemma countP_set_same {α : Type} (l : List α) (i : Nat) (a b : α) (p : α → Bool)
    (h : l[i]? = some a) (hpb : p a = p b) :
    (l.set i b).countP p = l.countP p := by
  induction l generalizing i with
  | nil => simp at h
  | cons x xs ih =>
    cases i with
    | zero =>
      simp only [List.getElem?_cons_zero] at h
      injection h with h
      subst h
      simp [List.countP_cons, hpb]
    | succ j =>
      simp only [List.getElem?_cons_succ] at h
      simp [List.countP_cons, ih j h]

lemma lookupIdx_append_self (m : List (Str × Nat)) (k : Str) (i : Nat)
    (h : lookupIdx m k = none) : lookupIdx (m ++ [(k, i)]) k = some i := by
  simp only [lookupIdx, Option.map_eq_none'] at h
  simp [lookupIdx, List.find?_append, h]

/-- C3 (amended): the store is keyed by the node's exact URL string, not
its canonical form: calling SaveNodeContent twice for the same node with
different content leaves exactly one record under that URL string, holding
the latest content, and adds no record on the second call. -/
theorem saveNodeContent_exact_url_upsert
    (d : XMLDoc) (n : WebNode) (u : GoURL) (c1 c2 t1 t2 : Str) (d1 d2 : XMLDoc)
    (hwf : d.WF) (hu : n.url = some u)
    (h1 : saveNodeContent d (some n) c1 t1 = some d1)
    (h2 : saveNodeContent d1 (some n) c2 t2 = some d2) :
    d2.pages.countP (fun p => p.url == u.toStr) = 1 ∧
    d2.pages.length = d1.pages.length ∧
    (∃ i p, lookupIdx d2.pagesByURL u.toStr = some i ∧ d2.pages[i]? = some p ∧
      p.content = c2 ∧ p.url = u.toStr) := by
  obtain ⟨wf1, wf2, wf3⟩ := hwf
  simp only [saveNodeContent, hu] at h1 h2
  cases hl : lookupIdx d.pagesByURL u.toStr with
  | some idx =>
    rw [hl] at h1
    injection h1 with h1
    subst h1
    simp only at h2
    rw [hl] at h2
    injection h2 with h2
    subst h2
    obtain ⟨p, hp, hpu⟩ := wf1 u.toStr idx hl
    have hidx : idx < d.pages.length := by
      rcases List.getElem?_eq_some.mp hp with ⟨hlen, _⟩
      exact hlen
    have hidx1 : idx < (d.pages.set idx
        ⟨u.toStr, n.title, u.path, t1, c1,
          n.children.filterMap (fun c => c.url.map GoURL.toStr)⟩).length := by
      simpa using hidx
    refine ⟨?_, by simp, idx,
      ⟨u.toStr, n.title, u.path, t2, c2,
        n.children.filterMap (fun c => c.url.map GoURL.toStr)⟩,
      hl, ?_, rfl, rfl⟩
    · rw [countP_set_same _ idx
        ⟨u.toStr, n.title, u.path, t1, c1,
          n.children.filterMap (fun c => c.url.map GoURL.toStr)⟩ _ _
        (List.getElem?_set_self hidx) (by simp)]
      rw [countP_set_same _ idx p _ _ hp (by simp [hpu])]
      exact wf3 u.toStr idx hl
    · exact List.getElem?_set_self hidx1
  | none =>
    rw [hl] at h1
    injection h1 with h1
    subst h1
    have hlook := lookupIdx_append_self d.pagesByURL u.toStr d.pages.length hl
    simp only [hlook] at h2
    injection h2 with h2
    subst h2
    have hlast : (d.pages ++
        [(⟨u.toStr, n.title, u.path, t1, c1,
          n.children.filterMap (fun c => c.url.map GoURL.toStr)⟩ : XMLPage)])[d.pages.length]? =
        some ⟨u.toStr, n.title, u.path, t1, c1,
          n.children.filterMap (fun c => c.url.map GoURL.toStr)⟩ :=
      List.getElem?_concat_length _ _
    have hlen2 : d.pages.length < (d.pages ++
        [(⟨u.toStr, n.title, u.path, t1, c1,
          n.children.filterMap (fun c => c.url.map GoURL.toStr)⟩ : XMLPage)]).length := by
      simp
    refine ⟨?_, by simp, d.pages.length,
      ⟨u.toStr, n.title, u.path, t2, c2,
        n.children.filterMap (fun c => c.url.map GoURL.toStr)⟩,
      hlook, ?_, rfl, rfl⟩
    · rw [countP_set_same _ d.pages.length _ _ _ hlast (by simp)]
      rw [List.countP_append]
      rw [wf2 u.toStr hl]
      simp
    · exact List.getElem?_set_self hlen2

/-- Claim C3 fails on the code: saving two nodes whose URL strings differ
only in a trailing slash — the same canonical form — produces two store
records, because SaveNodeContent keys records by the exact URL string. -/
theorem saveNodeContent_canonical_counterexample :
    normalizeURL c3NodeA.url = normalizeURL c3NodeB.url ∧
    c3NodeA.url ≠ c3NodeB.url ∧
    Option.map (fun d => d.pages.length)
      ((saveNodeContent emptyXMLDoc (some c3NodeA) ['x'] ['t']).bind
        (fun d1 => saveNodeContent d1 (some c3NodeB) ['y'] ['t'])) = some 2 := by
  refine ⟨by decide, by decide, by rfl⟩

theorem saveNodeContent_exact_url_upsert_witness :
    c3D2.pages.countP (fun p => p.url == c3URL.toStr) = 1 ∧
    c3D2.pages.length = c3D1.pages.length ∧
    (∃ i p, lookupIdx c3D2.pagesByURL c3URL.toStr = some i ∧
      c3D2.pages[i]? = some p ∧ p.content = ['y'] ∧ p.url = c3URL.toStr) :=
  saveNodeContent_exact_url_upsert emptyXMLDoc c3NodeA c3URL
    ['x'] ['y'] ['t'] ['s'] c3D1 c3D2 emptyXMLDoc_wf (by decide) (by decide) (by decide)

lemma hrefLines_append (a b : List OutLine) :
    hrefLines (a ++ b) = hrefLines a ++ hrefLines b := by
  simp [hrefLines, List.filterMap_append]

lemma foldl_processLink_eq (rootURL : Str) (t : WebTree) (debug : Bool) :
    ∀ (links : List Str) (s : ExpState),
      (links.foldl (processLink rootURL t debug) s).printed =
        (exploreSpecLines rootURL links s.printed).reverse ++ s.printed ∧
      hrefLines (links.foldl (processLink rootURL t debug) s).lines =
        hrefLines s.lines ++ exploreSpecLines rootURL links s.printed := by
  intro links
  induction links with
  | nil => intro s; simp [exploreSpecLines]
  | cons l ls ih =>
    intro s
    simp only [List.foldl_cons, exploreSpecLines]
    by_cases hacc : isParentURL rootURL l = true
    · rw [if_pos hacc]
      by_cases hmem : removeFragment l ∈ s.printed
      · have hstep : processLink rootURL t debug s l = s := by
          simp [processLink, hacc, hmem]
        rw [hstep, if_pos (by simpa using hmem)]
        exact ih s
      · have hstep : processLink rootURL t debug s l =
            ⟨removeFragment l :: s.printed,
              s.lines ++ [.href (removeFragment l)]⟩ := by
          simp [processLink, hacc, hmem]
        rw [hstep, if_neg (by simpa using hmem)]
        obtain ⟨ihp, ihl⟩ :=
          ih ⟨removeFragment l :: s.printed, s.lines ++ [.href (removeFragment l)]⟩
        constructor
        · rw [ihp]
          simp
        · rw [ihl]
          simp [hrefLines_append, hrefLines, hrefOf]
    · rw [if_neg hacc]
      have hstep : hrefLines (processLink rootURL t debug s l).lines =
          hrefLines s.lines ∧
          (processLink rootURL t debug s l).printed = s.printed := by
        by_cases hdbg : debug = true
        · by_cases hvis : isVisited t l = true
          · simp [processLink, hacc, hdbg, hvis, hrefLines_append, hrefLines, hrefOf]
          · simp [processLink, hacc, hdbg, hvis, hrefLines_append, hrefLines, hrefOf]
        · simp [processLink, hacc, hdbg]
      obtain ⟨ihp2, ihl2⟩ := ih (processLink rootURL t debug s l)
      constructor
      · rw [ihp2, hstep.2]
      · rw [ihl2, hstep.1, hstep.2]

lemma exploreSpecLines_not_mem_printed (rootURL : Str) :
    ∀ (links printed : List Str) (x : Str),
      x ∈ exploreSpecLines rootURL links printed → x ∉ printed := by
  intro links
  induction links with
  | nil => intro printed x hx; simp [exploreSpecLines] at hx
  | cons l ls ih =>
    intro printed x hx
    simp only [exploreSpecLines] at hx
    by_cases hacc : isParentURL rootURL l = true
    · rw [if_pos hacc] at hx
      by_cases hmem : printed.contains (removeFragment l) = true
      · rw [if_pos hmem] at hx
        exact ih printed x hx
      · rw [if_neg hmem] at hx
        rcases List.mem_cons.mp hx with hx | hx
        · subst hx
          intro hc
          exact hmem (by simpa using hc)
        · intro hc
          exact ih (removeFragment l :: printed) x hx (List.mem_cons_of_mem _ hc)
    · rw [if_neg hacc] at hx
      exact ih printed x hx

lemma exploreSpecLines_nodup (rootURL : Str) :
    ∀ (links printed : List Str), (exploreSpecLines rootURL links printed).Nodup := by
  intro links
  induction links with
  | nil => intro printed; simp [exploreSpecLines]
  | cons l ls ih =>
    intro printed
    simp only [exploreSpecLines]
    by_cases hacc : isParentURL rootURL l = true
    · rw [if_pos hacc]
      by_cases hmem : printed.contains (removeFragment l) = true
      · rw [if_pos hmem]
        exact ih printed
      · rw [if_neg hmem]
        refine List.nodup_cons.mpr ⟨?_, ih _⟩
        intro hc
        exact exploreSpecLines_not_mem_printed rootURL ls
          (removeFragment l :: printed) (removeFragment l) hc
          (List.mem_cons_self _ _)
    · rw [if_neg hacc]
      exact ih printed

lemma exploreSpecLines_mem (rootURL : Str) :
    ∀ (links printed : List Str) (x : Str),
      x ∈ exploreSpecLines rootURL links printed ↔
        (x ∉ printed ∧ ∃ k ∈ links, isParentURL rootURL k = true ∧
          removeFragment k = x) := by
  intro links
  induction links with
  | nil => intro printed x; simp [exploreSpecLines]
  | cons l ls ih =>
    intro printed x
    simp only [exploreSpecLines]
    by_cases hacc : isParentURL rootURL l = true
    · rw [if_pos hacc]
      by_cases hmem : printed.contains (removeFragment l) = true
      · rw [if_pos hmem]
        rw [ih printed x]
        constructor
        · rintro ⟨hxp, k, hk, hkacc, hkx⟩
          exact ⟨hxp, k, List.mem_cons_of_mem l hk, hkacc, hkx⟩
        · rintro ⟨hxp, k, hk, hkacc, hkx⟩
          rcases List.mem_cons.mp hk with hkl | hk
          · subst hkl
            subst hkx
            exact absurd (by simpa using hmem) hxp
          · exact ⟨hxp, k, hk, hkacc, hkx⟩
      · rw [if_neg hmem]
        constructor
        · intro hx
          rcases List.mem_cons.mp hx with hx | hx
          · subst hx
            exact ⟨fun hc => hmem (by simpa using hc), l,
              List.mem_cons_self l ls, hacc, rfl⟩
          · obtain ⟨hxp, k, hk, hkacc, hkx⟩ := (ih _ x).mp hx
            exact ⟨fun hc => hxp (List.mem_cons_of_mem _ hc), k,
              List.mem_cons_of_mem l hk, hkacc, hkx⟩
        · rintro ⟨hxp, k, hk, hkacc, hkx⟩
          rcases List.mem_cons.mp hk with hkl | hk
          · subst hkl
            subst hkx
            exact List.mem_cons_self _ _
          · by_cases hxc : x = removeFragment l
            · subst hxc
              exact List.mem_cons_self _ _
            · refine List.mem_cons_of_mem _ ((ih _ x).mpr ⟨?_, k, hk, hkacc, hkx⟩)
              intro hc
              rcases List.mem_cons.mp hc with hc | hc
              · exact hxc hc
              · exact hxp hc
    · rw [if_neg hacc]
      rw [ih printed x]
      constructor
      · rintro ⟨hxp, k, hk, hkacc, hkx⟩
        exact ⟨hxp, k, List.mem_cons_of_mem l hk, hkacc, hkx⟩
      · rintro ⟨hxp, k, hk, hkacc, hkx⟩
        rcases List.mem_cons.mp hk with hkl | hk
        · subst hkl
          exact absurd hkacc hacc
        · exact ⟨hxp, k, hk, hkacc, hkx⟩

/-- C4 (amended): among the links discovered on the root page, Explore
prints exactly one accepted-link report line per fragment-stripped URL
string: the report lines are distinct and consist of exactly the
fragment-stripped forms of the accepted links; links differing only in
their fragment are reported once, but trailing-slash variants of the same
canonical form are reported separately. -/
theorem explore_fragment_dedup (env : FetchEnv) (rootURL : Str) (debug : Bool)
    (t0 : WebTree) (doc : PageDoc) (pu : GoURL)
    (henv : env rootURL = some doc) (hp : parseURL rootURL = some pu) :
    (hrefLines (exploreRun env rootURL debug t0).state.lines).Nodup ∧
    (∀ x, x ∈ hrefLines (exploreRun env rootURL debug t0).state.lines ↔
      ∃ k ∈ doc.links, isParentURL rootURL k = true ∧ removeFragment k = x) := by
  have hrun : (exploreRun env rootURL debug t0).state =
      doc.links.foldl
        (processLink rootURL ⟨t0.rootNode.setTitle doc.title, t0.maxDepth, t0.visitedURLs⟩ debug)
        ⟨[], []⟩ := by
    simp [exploreRun, henv, hp]
  rw [hrun]
  obtain ⟨hfp, hfl⟩ := foldl_processLink_eq rootURL
    ⟨t0.rootNode.setTitle doc.title, t0.maxDepth, t0.visitedURLs⟩ debug doc.links ⟨[], []⟩
  rw [hfl]
  simp only [hrefLines, List.filterMap_nil, List.nil_append]
  constructor
  · exact exploreSpecLines_nodup rootURL doc.links []
  · intro x
    rw [exploreSpecLines_mem rootURL doc.links [] x]
    simp

/-- Claim C4 fails on the code: two accepted links of the same canonical
form that differ in a trailing slash are both reported — Explore
deduplicates report lines by the fragment-stripped URL only, which keeps
the trailing slash. -/
theorem explore_canonical_dedup_counterexample :
    isParentURL c4Root c4L1 = true ∧
    isParentURL c4Root c4L2 = true ∧
    normalizeURL (parseURL c4L1) = normalizeURL (parseURL c4L2) ∧
    c4L1 ≠ c4L2 ∧
    hrefLines (exploreRun c4Env c4Root false c4Tree).state.lines =
      [removeFragment c4L1, removeFragment c4L2] ∧
    removeFragment c4L1 ≠ removeFragment c4L2 := by
  refine ⟨by decide, by decide, by decide, by decide, by decide, by decide⟩

theorem explore_fragment_dedup_witness :
    (hrefLines (exploreRun c4Env c4Root false c4Tree).state.lines).Nodup ∧
    (∀ x, x ∈ hrefLines (exploreRun c4Env c4Root false c4Tree).state.lines ↔
      ∃ k ∈ c4Doc.links, isParentURL c4Root k = true ∧ removeFragment k = x) :=
  explore_fragment_dedup c4Env c4Root false c4Tree c4Doc
    ⟨"https".data, ['h'], "/a/b".data, [], []⟩ (by decide) (by decide)

lemma printStep_tree (s : DLState) (c : Str) : (printStep s c).tree = s.tree := by
  unfold printStep
  split <;> rfl

lemma printStep_store (s : DLState) (c : Str) : (printStep s c).store = s.store := by
  unfold printStep
  split <;> rfl

lemma printStep_fetched (s : DLState) (c : Str) : (printStep s c).fetched = s.fetched := by
  unfold printStep
  split <;> rfl

lemma url_setTitle (n : WebNode) (ti : Str) : (n.setTitle ti).url = n.url := by
  cases n
  rfl

lemma saveNodeContent_isSome (d : XMLDoc) (n : WebNode) (u : GoURL) (c now : Str)
    (hu : n.url = some u) : (saveNodeContent d (some n) c now).isSome = true := by
  simp only [saveNodeContent, hu]
  cases lookupIdx d.pagesByURL u.toStr <;> rfl

/-- C6: a root fetch failure is fatal — Download reports failure with no
link processed and nothing persisted; when the root page fetches and its
content extracts, Download reports success no matter what happens to the
individual links; and an accepted link whose own fetch or content
extraction fails only gets a failure report line — the store is left
exactly as it was — while the loop goes on to process the remaining
links unconditionally. -/
theorem download_failure_policy :
    (∀ env rootURL dlAll debug now t0 st0, env rootURL = none →
      downloadRun env rootURL dlAll debug now t0 st0 =
        ⟨false, ⟨t0, [], st0, [rootURL], []⟩⟩) ∧
    (∀ env rootURL dlAll debug now t0 st0 doc content ru pu,
      env rootURL = some doc → doc.contentRes = some content →
      t0.rootNode.url = some ru → parseURL rootURL = some pu →
      (downloadRun env rootURL dlAll debug now t0 st0).ok = true) ∧
    (∀ env rootURL debug now s link n nu,
      isParentURL rootURL link = true →
      (addURLTree s.tree link (findNodePath s.tree rootURL)).node = some n →
      n.url = some nu →
      (env nu.toStr = none ∨ ∃ d2, env nu.toStr = some d2 ∧ d2.contentRes = none) →
      (processLinkAndDownload env rootURL true debug now s link).store = s.store ∧
      ((processLinkAndDownload env rootURL true debug now s link).lines =
          (printStep s (removeFragment link)).lines ++ [.fetchFail nu.toStr] ∨
        (processLinkAndDownload env rootURL true debug now s link).lines =
          (printStep s (removeFragment link)).lines ++ [.extractFail nu.toStr])) ∧
    (∀ env rootURL dlAll debug now (pre post : List Str) (l : Str) (s : DLState),
      (pre ++ l :: post).foldl (processLinkAndDownload env rootURL dlAll debug now) s =
        post.foldl (processLinkAndDownload env rootURL dlAll debug now)
          (processLinkAndDownload env rootURL dlAll debug now
            (pre.foldl (processLinkAndDownload env rootURL dlAll debug now) s) l)) := by
  refine ⟨?_, ?_, ?_, ?_⟩
  · intro env rootURL dlAll debug now t0 st0 henv
    simp [downloadRun, henv]
  · intro env rootURL dlAll debug now t0 st0 doc content ru pu henv hcon hru hp
    have hsave : (saveNodeContent st0 (some (t0.rootNode.setTitle doc.title))
        content now).isSome = true :=
      saveNodeContent_isSome st0 _ ru content now (by rw [url_setTitle]; exact hru)
    simp only [downloadRun, henv, hcon]
    cases hs : saveNodeContent st0 (some (t0.rootNode.setTitle doc.title)) content now with
    | none => rw [hs] at hsave; cases hsave
    | some st1 => simp [hp]
  · intro env rootURL debug now s link n nu hacc hadd hnu hfail
    simp only [processLinkAndDownload, hacc, if_true, if_pos, printStep_tree] at *
    rw [hadd]
    simp only [hnu]
    rcases hfail with hfe | ⟨d2, hd2, hcr⟩
    · rw [hfe]
      exact ⟨printStep_store s (removeFragment link), Or.inl rfl⟩
    · rw [hd2]
      simp only [hcr]
      exact ⟨printStep_store s (removeFragment link), Or.inr trivial⟩
  · intro env rootURL dlAll debug now pre post l s
    rw [List.foldl_append, List.foldl_cons]

theorem download_failure_policy_witness :
    downloadRun (fun _ => none) c6Root true false ['t'] c6Tree emptyXMLDoc =
      ⟨false, ⟨c6Tree, [], emptyXMLDoc, [c6Root], []⟩⟩ ∧
    (downloadRun c6Env c6Root true false ['t'] c6Tree emptyXMLDoc).ok = true ∧
    ((processLinkAndDownload c6Env c6Root true false ['t'] c6S0 c6Link).store =
        c6S0.store ∧
      ((processLinkAndDownload c6Env c6Root true false ['t'] c6S0 c6Link).lines =
          (printStep c6S0 (removeFragment c6Link)).lines ++ [.fetchFail c6NU.toStr] ∨
        (processLinkAndDownload c6Env c6Root true false ['t'] c6S0 c6Link).lines =
          (printStep c6S0 (removeFragment c6Link)).lines ++ [.extractFail c6NU.toStr])) :=
  ⟨download_failure_policy.1 (fun _ => none) c6Root true false ['t'] c6Tree
      emptyXMLDoc rfl,
    download_failure_policy.2.1 c6Env c6Root true false ['t'] c6Tree emptyXMLDoc
      c6Doc ['c'] c6RootPU c6RootPU (by decide) (by decide) (by decide) (by decide),
    download_failure_policy.2.2.1 c6Env c6Root false ['t'] c6S0 c6Link c6Node c6NU
      (by decide) rfl rfl (Or.inl (by decide))⟩

lemma setNewChildTitle_visited (t : WebTree) (pp : Option (List Nat)) (ti : Str) :
    (setNewChildTitle t pp ti).visitedURLs = t.visitedURLs := by
  cases pp <;> rfl

lemma processLinkAndDownload_fetch_visited (env : FetchEnv) (rootURL : Str)
    (debug : Bool) (now : Str) (s : DLState) (link : Str) :
    (processLinkAndDownload env rootURL true debug now s link).fetched =
      (if isParentURL rootURL link then
        match parseURL link with
        | none => s.fetched
        | some pu =>
          if s.tree.visitedURLs.contains (normalizeURL (some pu)) then s.fetched
          else s.fetched ++ [pu.toStr]
      else s.fetched) ∧
    (processLinkAndDownload env rootURL true debug now s link).tree.visitedURLs =
      (if isParentURL rootURL link then
        match parseURL link with
        | none => s.tree.visitedURLs
        | some pu =>
          if s.tree.visitedURLs.contains (normalizeURL (some pu)) then s.tree.visitedURLs
          else normalizeURL (some pu) :: s.tree.visitedURLs
      else s.tree.visitedURLs) := by
  by_cases hacc : isParentURL rootURL link = true
  · rw [if_pos hacc, if_pos hacc]
    simp only [processLinkAndDownload, hacc, if_true, printStep_tree]
    cases hp : parseURL link with
    | none =>
      simp [addURLTree, hp, printStep_fetched]
    | some pu =>
      have hnew := newWebNode_parse link pu
        ((findNodePath s.tree rootURL).bind (getAt s.tree.rootNode)) hp
      simp only [addURLTree, hp, hnew]
      cases hv : s.tree.visitedURLs.contains (normalizeURL (some pu)) with
      | true => simp [printStep_fetched]
      | false =>
        simp only [Bool.false_eq_true, if_false, WebNode.url]
        cases henv : env pu.toStr with
        | none => simp [printStep_fetched]
        | some doc2 =>
          cases hcr : doc2.contentRes with
          | none => simp [hcr, printStep_fetched, setNewChildTitle_visited]
          | some c2 =>
            cases hsv : saveNodeContent (printStep s (removeFragment link)).store
                (some ((WebNode.mk (some pu) []
                  (match (findNodePath s.tree rootURL).bind (getAt s.tree.rootNode) with
                   | some q => q.depth + 1
                   | none => 0) []).setTitle doc2.title)) c2 now with
            | none => simp [hcr, hsv, printStep_fetched, setNewChildTitle_visited]
            | some st2 => simp [hcr, hsv, printStep_fetched, setNewChildTitle_visited]
  · rw [if_neg hacc, if_neg hacc]
    by_cases hdbg : debug = true
    · by_cases hvis : isVisited s.tree link = true
      · simp [processLinkAndDownload, hacc, hdbg, hvis]
      · simp [processLinkAndDownload, hacc, hdbg, hvis]
    · simp [processLinkAndDownload, hacc, hdbg]

lemma foldl_download_fetch_visited (env : FetchEnv) (rootURL : Str) (debug : Bool)
    (now : Str) :
    ∀ (links : List Str) (s : DLState),
      (links.foldl (processLinkAndDownload env rootURL true debug now) s).fetched =
        s.fetched ++ downloadFetchSpec rootURL links s.tree.visitedURLs ∧
      (links.foldl (processLinkAndDownload env rootURL true debug now) s).tree.visitedURLs =
        (downloadKeySpec rootURL links s.tree.visitedURLs).reverse ++ s.tree.visitedURLs := by
  intro links
  induction links with
  | nil => intro s; simp [downloadFetchSpec, downloadKeySpec]
  | cons l ls ih =>
    intro s
    simp only [List.foldl_cons, downloadFetchSpec, downloadKeySpec]
    obtain ⟨hf, hv⟩ := processLinkAndDownload_fetch_visited env rootURL debug now s l
    obtain ⟨ihf, ihv⟩ := ih (processLinkAndDownload env rootURL true debug now s l)
    rw [ihf, ihv, hf, hv]
    by_cases hacc : isParentURL rootURL l = true
    · rw [if_pos hacc, if_pos hacc, if_pos hacc, if_pos hacc]
      cases hp : parseURL l with
      | none => simp
      | some pu =>
        cases hcv : s.tree.visitedURLs.contains (normalizeURL (some pu)) with
        | true =>
          have hm : normalizeURL (some pu) ∈ s.tree.visitedURLs := by simpa using hcv
          simp [hm]
        | false =>
          have hm : normalizeURL (some pu) ∉ s.tree.visitedURLs := by simpa using hcv
          simp [hm]
    · rw [if_neg hacc, if_neg hacc, if_neg hacc, if_neg hacc]
      simp

lemma downloadKeySpec_not_mem (rootURL : Str) :
    ∀ (links v : List Str) (k : Str), k ∈ downloadKeySpec rootURL links v → k ∉ v := by
  intro links
  induction links with
  | nil => intro v k hk; simp [downloadKeySpec] at hk
  | cons l ls ih =>
    intro v k hk
    simp only [downloadKeySpec] at hk
    by_cases hacc : isParentURL rootURL l = true
    · rw [if_pos hacc] at hk
      cases hp : parseURL l with
      | none => simp only [hp] at hk; exact ih v k hk
      | some pu =>
        simp only [hp] at hk
        by_cases hv : v.contains (normalizeURL (some pu)) = true
        · rw [if_pos hv] at hk
          exact ih v k hk
        · rw [if_neg hv] at hk
          rcases List.mem_cons.mp hk with hk | hk
          · subst hk
            intro hc
            exact hv (by simpa using hc)
          · intro hc
            exact ih _ k hk (List.mem_cons_of_mem _ hc)
    · rw [if_neg hacc] at hk
      exact ih v k hk

lemma downloadKeySpec_nodup (rootURL : Str) :
    ∀ (links v : List Str), (downloadKeySpec rootURL links v).Nodup := by
  intro links
  induction links with
  | nil => intro v; simp [downloadKeySpec]
  | cons l ls ih =>
    intro v
    simp only [downloadKeySpec]
    by_cases hacc : isParentURL rootURL l = true
    · rw [if_pos hacc]
      cases hp : parseURL l with
      | none => exact ih v
      | some pu =>
        dsimp only
        by_cases hv : v.contains (normalizeURL (some pu)) = true
        · rw [if_pos hv]
          exact ih v
        · rw [if_neg hv]
          refine List.nodup_cons.mpr ⟨?_, ih _⟩
          intro hc
          exact downloadKeySpec_not_mem rootURL ls _ _ hc (List.mem_cons_self _ _)
    · rw [if_neg hacc]
      exact ih v

lemma acceptedKeys_cons (rootURL l : Str) (ls : List Str) :
    acceptedKeys rootURL (l :: ls) =
      (if isParentURL rootURL l then
        match parseURL l with
        | none => acceptedKeys rootURL ls
        | some pu => normalizeURL (some pu) :: acceptedKeys rootURL ls
      else acceptedKeys rootURL ls) := by
  by_cases hacc : isParentURL rootURL l = true
  · rw [if_pos hacc]
    cases hp : parseURL l with
    | none => simp [acceptedKeys, List.filter_cons, hacc, hp]
    | some pu => simp [acceptedKeys, List.filter_cons, hacc, hp]
  · rw [if_neg hacc]
    simp [acceptedKeys, List.filter_cons, hacc]

lemma downloadKeySpec_sub (rootURL : Str) :
    ∀ (links v : List Str) (k : Str),
      k ∈ downloadKeySpec rootURL links v → k ∈ acceptedKeys rootURL links := by
  intro links
  induction links with
  | nil => intro v k hk; simp [downloadKeySpec] at hk
  | cons l ls ih =>
    intro v k hk
    simp only [downloadKeySpec] at hk
    rw [acceptedKeys_cons]
    by_cases hacc : isParentURL rootURL l = true
    · rw [if_pos hacc] at hk
      rw [if_pos hacc]
      cases hp : parseURL l with
      | none => simp only [hp] at hk; exact ih v k hk
      | some pu =>
        simp only [hp] at hk
        dsimp only
        by_cases hv : v.contains (normalizeURL (some pu)) = true
        · rw [if_pos hv] at hk
          exact List.mem_cons_of_mem _ (ih v k hk)
        · rw [if_neg hv] at hk
          rcases List.mem_cons.mp hk with hk | hk
          · subst hk
            exact List.mem_cons_self _ _
          · exact List.mem_cons_of_mem _ (ih _ k hk)
    · rw [if_neg hacc] at hk
      rw [if_neg hacc]
      exact ih v k hk

lemma downloadFetchSpec_length (rootURL : Str) :
    ∀ (links v : List Str),
      (downloadFetchSpec rootURL links v).length =
        (downloadKeySpec rootURL links v).length := by
  intro links
  induction links with
  | nil => intro v; simp [downloadFetchSpec, downloadKeySpec]
  | cons l ls ih =>
    intro v
    simp only [downloadFetchSpec, downloadKeySpec]
    by_cases hacc : isParentURL rootURL l = true
    · rw [if_pos hacc, if_pos hacc]
      cases parseURL l with
      | none => exact ih v
      | some pu =>
        dsimp only
        by_cases hv : v.contains (normalizeURL (some pu)) = true
        · rw [if_pos hv, if_pos hv]
          exact ih v
        · rw [if_neg hv, if_neg hv]
          simp [ih]
    · rw [if_neg hacc, if_neg hacc]
      exact ih v

lemma nodup_subset_length_le (L M : List Str) (hnd : L.Nodup)
    (hsub : ∀ x ∈ L, x ∈ M) : L.length ≤ M.dedup.length := by
  have h1 : L.toFinset.card = L.length := List.toFinset_card_of_nodup hnd
  have h2 : M.toFinset.card = M.dedup.length := List.card_toFinset M
  have h3 : L.toFinset ⊆ M.toFinset := by
    intro x hx
    exact List.mem_toFinset.mpr (hsub x (List.mem_toFinset.mp hx))
  rw [← h1, ← h2]
  exact Finset.card_le_card h3

lemma processLinkAndDownload_envAgree (env env' : FetchEnv) (rootURL : Str)
    (h : envAgree rootURL env env') (dlAll debug : Bool) (now : Str) :
    processLinkAndDownload env rootURL dlAll debug now =
      processLinkAndDownload env' rootURL dlAll debug now := by
  funext s link
  unfold processLinkAndDownload
  by_cases hacc : isParentURL rootURL link = true
  · simp only [hacc, if_true]
    cases dlAll with
    | false => rfl
    | true =>
      cases hnode : (addURLTree (printStep s (removeFragment link)).tree link
          (findNodePath (printStep s (removeFragment link)).tree rootURL)).node with
      | none => simp [hnode]
      | some newNode =>
        cases hurl : newNode.url with
        | none => simp [hnode, hurl]
        | some nu =>
          simp only [hnode, hurl]
          by_cases hru : nu.toStr = rootURL
          · rw [hru, h.1]
          · have hag := h.2 nu.toStr hru
            cases he : env nu.toStr with
            | none =>
              cases he' : env' nu.toStr with
              | none => rfl
              | some d' =>
                rw [he, he'] at hag
                exact absurd hag (by simp [docAgree])
            | some d =>
              cases he' : env' nu.toStr with
              | none =>
                rw [he, he'] at hag
                exact absurd hag (by simp [docAgree])
              | some d' =>
                rw [he, he'] at hag
                obtain ⟨hti, hcr⟩ := hag
                dsimp only
                rw [hti, hcr]
  · simp only [hacc]
    rfl

lemma envAgree_refl (rootURL : Str) (env : FetchEnv) : envAgree rootURL env env := by
  refine ⟨rfl, fun u _ => ?_⟩
  cases env u with
  | none => trivial
  | some d => exact ⟨rfl, rfl⟩

/-- C7: Explore fetches exactly one page, the root, whatever the tree's
maximum depth; Download fetches the root and then exactly one page per
accepted link whose canonical form is new — at most one fetch per
distinct canonical form among the accepted links, never more; and the
whole run is oblivious to the outbound links of the fetched link pages,
so an accepted link's own links are never classified, fetched, or
expanded. -/
theorem single_level_expansion :
    (∀ env rootURL debug t0, (exploreRun env rootURL debug t0).fetched = [rootURL]) ∧
    (∀ env rootURL debug now t0 st0 doc content ru pu,
      env rootURL = some doc → doc.contentRes = some content →
      t0.rootNode.url = some ru → parseURL rootURL = some pu →
      (downloadRun env rootURL true debug now t0 st0).state.fetched =
        rootURL :: downloadFetchSpec rootURL doc.links t0.visitedURLs ∧
      (downloadRun env rootURL true debug now t0 st0).state.fetched.length ≤
        1 + (acceptedKeys rootURL doc.links).dedup.length) ∧
    (∀ env env' rootURL dlAll debug now t0 st0, envAgree rootURL env env' →
      downloadRun env rootURL dlAll debug now t0 st0 =
        downloadRun env' rootURL dlAll debug now t0 st0) := by
  refine ⟨?_, ?_, ?_⟩
  · intro env rootURL debug t0
    cases henv : env rootURL with
    | none => simp [exploreRun, henv]
    | some doc =>
      cases hp : parseURL rootURL with
      | none => simp [exploreRun, henv, hp]
      | some pu => simp [exploreRun, henv, hp]
  · intro env rootURL debug now t0 st0 doc content ru pu henv hcon hru hp
    have hsave : (saveNodeContent st0 (some (t0.rootNode.setTitle doc.title))
        content now).isSome = true :=
      saveNodeContent_isSome st0 _ ru content now (by rw [url_setTitle]; exact hru)
    simp only [downloadRun, henv, hcon]
    cases hs : saveNodeContent st0 (some (t0.rootNode.setTitle doc.title)) content now with
    | none => rw [hs] at hsave; cases hsave
    | some st1 =>
      simp only [hp]
      obtain ⟨hf, hv⟩ := foldl_download_fetch_visited env rootURL debug now doc.links
        ⟨⟨t0.rootNode.setTitle doc.title, t0.maxDepth, t0.visitedURLs⟩, [], st1,
          [rootURL], []⟩
      constructor
      · simpa using hf
      · have hb := nodup_subset_length_le
          (downloadKeySpec rootURL doc.links t0.visitedURLs)
          (acceptedKeys rootURL doc.links)
          (downloadKeySpec_nodup rootURL doc.links t0.visitedURLs)
          (fun x hx => downloadKeySpec_sub rootURL doc.links t0.visitedURLs x hx)
        have hlen := downloadFetchSpec_length rootURL doc.links t0.visitedURLs
        have hf' : (List.foldl (processLinkAndDownload env rootURL true debug now)
            ⟨⟨t0.rootNode.setTitle doc.title, t0.maxDepth, t0.visitedURLs⟩, [], st1,
              [rootURL], []⟩ doc.links).fetched.length =
            1 + (downloadFetchSpec rootURL doc.links t0.visitedURLs).length := by
          rw [hf]
          simp [Nat.add_comm]
        simpa [hf', hlen] using hb
  · intro env env' rootURL dlAll debug now t0 st0 h
    have hstep := processLinkAndDownload_envAgree env env' rootURL h dlAll debug now
    simp only [downloadRun, h.1, hstep]

theorem single_level_expansion_witness :
    (exploreRun c4Env c4Root false c4Tree).fetched = [c4Root] ∧
    ((downloadRun c6Env c6Root true false ['t'] c6Tree emptyXMLDoc).state.fetched =
        c6Root :: downloadFetchSpec c6Root c6Doc.links c6Tree.visitedURLs ∧
      (downloadRun c6Env c6Root true false ['t'] c6Tree emptyXMLDoc).state.fetched.length ≤
        1 + (acceptedKeys c6Root c6Doc.links).dedup.length) ∧
    downloadRun c6Env c6Root true false ['t'] c6Tree emptyXMLDoc =
      downloadRun c6Env c6Root true false ['t'] c6Tree emptyXMLDoc :=
  ⟨single_level_expansion.1 c4Env c4Root false c4Tree,
    single_level_expansion.2.1 c6Env c6Root false ['t'] c6Tree emptyXMLDoc c6Doc ['c']
      c6RootPU c6RootPU (by decide) (by decide) (by decide) (by decide),
    single_level_expansion.2.2 c6Env c6Env c6Root true false ['t'] c6Tree emptyXMLDoc
      (envAgree_refl c6Root c6Env)⟩

lemma addURLTree_setD (t : WebTree) (d : Int) (u : Str) (pp : Option (List Nat)) :
    addURLTree (setD t d) u pp =
      ⟨(addURLTree t u pp).node, (addURLTree t u pp).err,
        setD (addURLTree t u pp).tree d⟩ := by
  cases hp : parseURL u with
  | none => simp [addURLTree, hp, setD]
  | some pu =>
    simp only [addURLTree, hp, setD]
    cases hv : t.visitedURLs.contains (normalizeURL (some pu)) with
    | true => simp
    | false =>
      simp only [Bool.false_eq_true, if_false]
      cases hn : newWebNode u (pp.bind (getAt t.rootNode)) with
      | none => simp
      | some nn =>
        cases pp <;> simp

lemma printStep_setDS (s : DLState) (d : Int) (c : Str) :
    printStep (setDS s d) c = setDS (printStep s c) d := by
  simp only [printStep, setDS, setD]
  by_cases hc : s.printed.contains c = true
  · rw [if_pos hc, if_pos hc]
  · rw [if_neg hc, if_neg hc]

lemma setNewChildTitle_setD (t : WebTree) (d : Int) (pp : Option (List Nat)) (ti : Str) :
    setNewChildTitle (setD t d) pp ti = setD (setNewChildTitle t pp ti) d := by
  cases pp <;> rfl

lemma processLinkAndDownload_setDS (env : FetchEnv) (rootURL : Str)
    (dlAll debug : Bool) (now : Str) (s : DLState) (d : Int) (link : Str) :
    processLinkAndDownload env rootURL dlAll debug now (setDS s d) link =
      setDS (processLinkAndDownload env rootURL dlAll debug now s link) d := by
  unfold processLinkAndDownload
  by_cases hacc : isParentURL rootURL link = true
  · simp only [hacc, if_true]
    cases dlAll with
    | false => exact printStep_setDS s d (removeFragment link)
    | true =>
      rw [printStep_setDS]
      have htree : (setDS (printStep s (removeFragment link)) d).tree =
          setD (printStep s (removeFragment link)).tree d := rfl
      rw [htree]
      have hfp : findNodePath (setD (printStep s (removeFragment link)).tree d) rootURL =
          findNodePath (printStep s (removeFragment link)).tree rootURL := rfl
      rw [hfp, addURLTree_setD]
      dsimp only
      cases hnode : (addURLTree (printStep s (removeFragment link)).tree link
          (findNodePath (printStep s (removeFragment link)).tree rootURL)).node with
      | none => rfl
      | some newNode =>
        dsimp only
        cases hurl : newNode.url with
        | none => rfl
        | some nu =>
          dsimp only
          cases henv : env nu.toStr with
          | none => rfl
          | some doc2 =>
            dsimp only
            cases hcr : doc2.contentRes with
            | none =>
              dsimp only
              rw [setNewChildTitle_setD]
              rfl
            | some c2 =>
              dsimp only
              have hst : (setDS (printStep s (removeFragment link)) d).store =
                  (printStep s (removeFragment link)).store := rfl
              rw [hst]
              cases hsv : saveNodeContent (printStep s (removeFragment link)).store
                  (some (newNode.setTitle doc2.title)) c2 now with
              | none =>
                dsimp only
                rw [setNewChildTitle_setD]
                rfl
              | some st2 =>
                dsimp only
                rw [setNewChildTitle_setD]
                rfl
  · simp only [hacc]
    have h2 : ∀ (tt : WebTree) (dd : Int),
        isVisited ⟨tt.rootNode, dd, tt.visitedURLs⟩ link = isVisited tt link := by
      intro tt dd
      simp [isVisited]
    by_cases hdbg : debug = true
    · by_cases hv : isVisited s.tree link = true
      · simp [hdbg, hv, setDS, setD, h2]
      · simp [hdbg, hv, setDS, setD, h2]
    · simp [hdbg, setDS, setD]

lemma foldl_setDS (env : FetchEnv) (rootURL : Str) (dlAll debug : Bool) (now : Str) :
    ∀ (links : List Str) (s : DLState) (d : Int),
      links.foldl (processLinkAndDownload env rootURL dlAll debug now) (setDS s d) =
        setDS (links.foldl (processLinkAndDownload env rootURL dlAll debug now) s) d := by
  intro links
  induction links with
  | nil => intro s d; rfl
  | cons l ls ih =>
    intro s d
    simp only [List.foldl_cons]
    rw [processLinkAndDownload_setDS]
    exact ih _ d

lemma downloadRun_setD (env : FetchEnv) (rootURL : Str) (dlAll debug : Bool)
    (now : Str) (t0 : WebTree) (st0 : XMLDoc) (d : Int) :
    downloadRun env rootURL dlAll debug now (setD t0 d) st0 =
      ⟨(downloadRun env rootURL dlAll debug now t0 st0).ok,
        setDS (downloadRun env rootURL dlAll debug now t0 st0).state d⟩ := by
  unfold downloadRun
  cases henv : env rootURL with
  | none => rfl
  | some doc =>
    dsimp only
    have hroot : (setD t0 d).rootNode = t0.rootNode := rfl
    rw [hroot]
    cases hcon : doc.contentRes with
    | none => rfl
    | some content =>
      dsimp only
      cases hs : saveNodeContent st0 (some (t0.rootNode.setTitle doc.title)) content now with
      | none => rfl
      | some st1 =>
        dsimp only
        cases hp : parseURL rootURL with
        | none => rfl
        | some pu =>
          dsimp only
          have hfold := foldl_setDS env rootURL dlAll debug now doc.links
            ⟨⟨t0.rootNode.setTitle doc.title, t0.maxDepth, t0.visitedURLs⟩, [], st1,
              [rootURL], []⟩ d
          exact congrArg (fun z => DLResult.mk true z) hfold

lemma processLink_depth (rootURL : Str) (rr : WebNode) (v : List Str)
    (d1 d2 : Int) (debug : Bool) :
    processLink rootURL ⟨rr, d1, v⟩ debug = processLink rootURL ⟨rr, d2, v⟩ debug := by
  funext s link
  unfold processLink
  by_cases hacc : isParentURL rootURL link = true
  · simp [hacc]
  · have h2 : isVisited ⟨rr, d1, v⟩ link = isVisited ⟨rr, d2, v⟩ link := by
      simp [isVisited]
    simp [hacc, h2]

/-- C10: the maxDepth parameter never influences observable behavior:
with identical root, environment, visited set and flags, two runs of
Explore or Download that differ only in maxDepth succeed alike, fetch the
same URLs, print the same lines, build the same store, and leave the same
tree apart from the stored maxDepth value itself — the orchestrator never
reads MaxDepth and never calls isAllowedDepth. -/
theorem maxDepth_no_observable_effect :
    (∀ env rootURL debug (r : WebNode) (v : List Str) (d1 d2 : Int),
      (exploreRun env rootURL debug ⟨r, d1, v⟩).ok =
        (exploreRun env rootURL debug ⟨r, d2, v⟩).ok ∧
      (exploreRun env rootURL debug ⟨r, d1, v⟩).fetched =
        (exploreRun env rootURL debug ⟨r, d2, v⟩).fetched ∧
      (exploreRun env rootURL debug ⟨r, d1, v⟩).state =
        (exploreRun env rootURL debug ⟨r, d2, v⟩).state ∧
      (exploreRun env rootURL debug ⟨r, d1, v⟩).tree.rootNode =
        (exploreRun env rootURL debug ⟨r, d2, v⟩).tree.rootNode ∧
      (exploreRun env rootURL debug ⟨r, d1, v⟩).tree.visitedURLs =
        (exploreRun env rootURL debug ⟨r, d2, v⟩).tree.visitedURLs) ∧
    (∀ env rootURL dlAll debug now st0 (r : WebNode) (v : List Str) (d1 d2 : Int),
      (downloadRun env rootURL dlAll debug now ⟨r, d1, v⟩ st0).ok =
        (downloadRun env rootURL dlAll debug now ⟨r, d2, v⟩ st0).ok ∧
      (downloadRun env rootURL dlAll debug now ⟨r, d1, v⟩ st0).state.printed =
        (downloadRun env rootURL dlAll debug now ⟨r, d2, v⟩ st0).state.printed ∧
      (downloadRun env rootURL dlAll debug now ⟨r, d1, v⟩ st0).state.store =
        (downloadRun env rootURL dlAll debug now ⟨r, d2, v⟩ st0).state.store ∧
      (downloadRun env rootURL dlAll debug now ⟨r, d1, v⟩ st0).state.fetched =
        (downloadRun env rootURL dlAll debug now ⟨r, d2, v⟩ st0).state.fetched ∧
      (downloadRun env rootURL dlAll debug now ⟨r, d1, v⟩ st0).state.lines =
        (downloadRun env rootURL dlAll debug now ⟨r, d2, v⟩ st0).state.lines ∧
      (downloadRun env rootURL dlAll debug now ⟨r, d1, v⟩ st0).state.tree.rootNode =
        (downloadRun env rootURL dlAll debug now ⟨r, d2, v⟩ st0).state.tree.rootNode ∧
      (downloadRun env rootURL dlAll debug now ⟨r, d1, v⟩ st0).state.tree.visitedURLs =
        (downloadRun env rootURL dlAll debug now ⟨r, d2, v⟩ st0).state.tree.visitedURLs) := by
  constructor
  · intro env rootURL debug r v d1 d2
    cases henv : env rootURL with
    | none => simp [exploreRun, henv]
    | some doc =>
      cases hp : parseURL rootURL with
      | none => simp [exploreRun, henv, hp]
      | some pu =>
        simp only [exploreRun, henv, hp]
        rw [processLink_depth rootURL (r.setTitle doc.title) v d1 d2 debug]
        refine ⟨?_, ?_, ?_, ?_, ?_⟩ <;> trivial
  · intro env rootURL dlAll debug now st0 r v d1 d2
    have h : downloadRun env rootURL dlAll debug now ⟨r, d1, v⟩ st0 =
        ⟨(downloadRun env rootURL dlAll debug now ⟨r, d2, v⟩ st0).ok,
          setDS (downloadRun env rootURL dlAll debug now ⟨r, d2, v⟩ st0).state d1⟩ :=
      downloadRun_setD env rootURL dlAll debug now ⟨r, d2, v⟩ st0 d1
    rw [h]
    exact ⟨rfl, rfl, rfl, rfl, rfl, rfl, rfl⟩
